import Mathlib

/-!
Verification development for the note-classification and tree-reconciliation
engine of the hackaton2026 repository (backend in src/app, AI service in
src/ai-service).  Python sources are embedded shallowly: strings are `String`
or `List Char`, dictionaries with known fields become structures whose
optional fields are `Option`, in-place mutation becomes functional update,
and fallible operations return `Option` or `Except`.
-/

namespace Spec2Proof

/-! ## Shared string utilities

Python whitespace handling (`str.strip`, `re.sub(r"\s+", " ", ...)`) and
substring containment (the `in` operator on `str`) used throughout the code.
-/

/-- The characters Python `str.strip` and the regex class `\s` treat as
whitespace: space, tab, newline, carriage return, form feed, vertical tab. -/
def isPySpace (c : Char) : Bool :=
  c = ' ' || c = '\t' || c = '\n' || c = '\r' || c = '\x0c' || c = '\x0b'

/-- Python `str.strip()` on a character list: drop whitespace at both ends. -/
def pyStrip (l : List Char) : List Char :=
  ((l.dropWhile isPySpace).reverse.dropWhile isPySpace).reverse

/-- Worker for `collapseWs`: the flag records whether the previous character
was whitespace (in which case further whitespace is dropped). -/
def collapseGo : Bool → List Char → List Char
  | _, [] => []
  | inRun, c :: r =>
    if isPySpace c then
      (if inRun then collapseGo true r else ' ' :: collapseGo true r)
    else c :: collapseGo false r

/-- Python `re.sub(r"\s+", " ", s)`: collapse every maximal whitespace run
to a single space. -/
def collapseWs (l : List Char) : List Char := collapseGo false l

/-- Python `str.lower()` on a string (ASCII-accurate). -/
def lowerStr (s : String) : String := ⟨s.data.map Char.toLower⟩

/-- Does `hay` start with `needle`?  (Helper for substring containment.) -/
def leadsWith : List Char → List Char → Bool
  | [], _ => true
  | _ :: _, [] => false
  | a :: as, b :: bs => a = b && leadsWith as bs

/-- Python `needle in hay` on strings: substring containment. -/
def containsSub (needle : List Char) : List Char → Bool
  | [] => leadsWith needle []
  | h :: t => leadsWith needle (h :: t) || containsSub needle t

theorem leadsWith_iff (n h : List Char) :
    leadsWith n h = true ↔ ∃ t, h = n ++ t := by
  induction n generalizing h with
  | nil => simp [leadsWith]
  | cons a as ih =>
    cases h with
    | nil => simp [leadsWith]
    | cons b bs =>
      simp only [leadsWith, Bool.and_eq_true, decide_eq_true_eq, ih,
        List.cons_append, List.cons.injEq]
      constructor
      · rintro ⟨rfl, t, rfl⟩; exact ⟨t, rfl, rfl⟩
      · rintro ⟨t, rfl, rfl⟩; exact ⟨rfl, t, rfl⟩

theorem containsSub_iff (n h : List Char) :
    containsSub n h = true ↔ ∃ p t, h = p ++ n ++ t := by
  induction h with
  | nil =>
    simp only [containsSub, leadsWith_iff]
    constructor
    · rintro ⟨t, ht⟩; exact ⟨[], t, by simpa using ht⟩
    · rintro ⟨p, t, ht⟩
      rcases List.append_eq_nil.mp (List.append_eq_nil.mp ht.symm).1 with ⟨rfl, rfl⟩
      exact ⟨t, by simpa using ht⟩
  | cons c r ih =>
    simp only [containsSub, Bool.or_eq_true, leadsWith_iff, ih]
    constructor
    · rintro (⟨t, ht⟩ | ⟨p, t, ht⟩)
      · exact ⟨[], t, by simpa using ht⟩
      · exact ⟨c :: p, t, by simp [ht]⟩
    · rintro ⟨p, t, ht⟩
      cases p with
      | nil => exact Or.inl ⟨t, by simpa using ht⟩
      | cons q qs =>
        simp only [List.cons_append, List.cons.injEq] at ht
        exact Or.inr ⟨qs, t, ht.2⟩

/-! ## app/main.py — `_normalize` and `_similar`

The fuzzy idea-equality helper used by the backend when deduplicating ideas
(`_process_single_ai`).
-/

namespace AppMain

/-- `_normalize`: lowercase, strip, collapse interior whitespace runs. -/
def normalize (s : String) : String :=
  ⟨collapseWs (pyStrip (s.data.map Char.toLower))⟩

/-- `_similar`: after normalization, equal, or (the first argument longer
than three characters and one a substring of the other). -/
def similar (a b : String) : Bool :=
  let a := normalize a
  let b := normalize b
  a = b || (decide (a.data.length > 3) &&
    (containsSub a.data b.data || containsSub b.data a.data))

end AppMain

/-- `C9` counterexample: the repository-wide fuzzy rule is claimed to hold
exactly when one normalized string contains the other, but `_similar` also
requires its first argument to normalize to more than three characters:
`"pan"` is contained in `"pan integral"` after normalization, yet
`_similar "pan" "pan integral"` is false.  (The DB-level delete matcher in
`ai_bridge.delete_entries_matching` would match this very pair, so the rule
is not shared either.) -/
theorem C9_counterexample :
    containsSub (AppMain.normalize "pan").data (AppMain.normalize "pan integral").data = true ∧
    AppMain.similar "pan" "pan integral" = false := by
  constructor <;> rfl

/-- `C9` (amended): `_similar a b` holds iff the normalized strings are equal,
or the normalization of the first argument is longer than three characters
and one normalized string is a substring of the other. -/
theorem C9_theorem (a b : String) :
    AppMain.similar a b = true ↔
      (AppMain.normalize a = AppMain.normalize b ∨
        ((AppMain.normalize a).data.length > 3 ∧
          ((∃ p t, (AppMain.normalize b).data = p ++ (AppMain.normalize a).data ++ t) ∨
           (∃ p t, (AppMain.normalize a).data = p ++ (AppMain.normalize b).data ++ t)))) := by
  simp only [AppMain.similar, Bool.or_eq_true, Bool.and_eq_true, decide_eq_true_eq,
    containsSub_iff]

/-- Witness for `C9_theorem` at a concrete pair: `"Leche  fresca"` and
`"quiero leche fresca ya"` are fuzzy-equal. -/
theorem C9_witness :
    AppMain.similar "Leche  fresca" "quiero leche fresca ya" = true :=
  ( C9_theorem "Leche  fresca" "quiero leche fresca ya").mpr
    (Or.inr ⟨by decide, Or.inl ⟨"quiero ".data, " ya".data, by decide⟩⟩)

/-! ## app/main.py — reminder scheduler (`_check_reminders`)

A `Reminder` row has a fire time and a `sent` flag.  The periodic job
queries the unsent rows whose fire time has passed, attempts an email for
each (`_send_email_notification` swallows every exception), and then marks
the row sent regardless of the delivery outcome.
-/

namespace AppMain

/-- A `Reminder` database row (id, message, fire time as a number, sent flag). -/
structure Reminder where
  rid : Nat
  message : String
  fire_at : Nat
  sent : Bool
deriving DecidableEq, Repr

/-- The due filter of `_check_reminders`: `sent == False` and `fire_at <= now`. -/
def reminderDue (now : Nat) (r : Reminder) : Bool :=
  !r.sent && r.fire_at ≤ now

/-- `_send_email_notification`: attempts SMTP delivery and swallows any
exception; the returned flag records whether delivery succeeded, and the
caller ignores it. -/
def sendEmailNotification (smtpOk : Nat → Bool) (r : Reminder) : Bool :=
  smtpOk r.rid

/-- `_check_reminders`: one scheduler tick.  Returns the updated rows (every
due reminder marked `sent`, independent of the email outcome) together with
the list of attempted deliveries and their outcomes. -/
def checkReminders (smtpOk : Nat → Bool) (now : Nat) (rs : List Reminder) :
    List Reminder × List (Reminder × Bool) :=
  (rs.map fun r => if reminderDue now r then { r with sent := true } else r,
   (rs.filter (reminderDue now)).map fun r => (r, sendEmailNotification smtpOk r))

end AppMain

/-- `C10`: one scheduler tick marks every due reminder `sent = true`, and the
marking is independent of whether the email deliveries succeed (the
exception is swallowed); consequently a subsequent tick only ever attempts
reminders that were not yet due at the first tick, so no reminder is
delivered or retried a second time. -/
theorem C10_theorem (smtp1 smtp2 : Nat → Bool) (now1 now2 : Nat)
    (rs : List AppMain.Reminder) :
    (AppMain.checkReminders smtp1 now1 rs).1 = (AppMain.checkReminders smtp2 now1 rs).1 ∧
    (∀ r ∈ (AppMain.checkReminders smtp1 now1 rs).1, r.fire_at ≤ now1 → r.sent = true) ∧
    (∀ p ∈ (AppMain.checkReminders smtp2 now2 (AppMain.checkReminders smtp1 now1 rs).1).2,
      now1 < p.1.fire_at) := by
  have h2 : ∀ r ∈ (AppMain.checkReminders smtp1 now1 rs).1,
      r.fire_at ≤ now1 → r.sent = true := by
    intro r hr hfire
    rcases List.mem_map.mp hr with ⟨x, _, rfl⟩
    by_cases h : AppMain.reminderDue now1 x = true
    · simp [h]
    · rw [if_neg h] at hfire ⊢
      simp only [AppMain.reminderDue, Bool.and_eq_true, Bool.not_eq_true',
        decide_eq_true_eq] at h
      rcases Bool.eq_false_or_eq_true x.sent with hs | hs
      · exact hs
      · exact absurd ⟨hs, hfire⟩ h
  refine ⟨rfl, h2, ?_⟩
  intro p hp
  rcases List.mem_map.mp hp with ⟨r, hr, rfl⟩
  rcases List.mem_filter.mp hr with ⟨hmem, hdue⟩
  simp only [AppMain.reminderDue, Bool.and_eq_true, Bool.not_eq_true',
    decide_eq_true_eq] at hdue
  by_contra hle
  push_neg at hle
  have hsent := h2 r hmem hle
  rw [hsent] at hdue
  exact absurd hdue.1 (by simp)

/-- Witness for `C10_theorem`: a reminder due at tick one is marked sent even
though delivery fails, and the state does not depend on the SMTP outcome. -/
theorem C10_witness :
    (AppMain.checkReminders (fun _ => false) 10
        [⟨1, "call", 5, false⟩]).1 =
      (AppMain.checkReminders (fun _ => true) 10
        [⟨1, "call", 5, false⟩]).1 :=
  (C10_theorem (fun _ => false) (fun _ => true) 10 20 [⟨1, "call", 5, false⟩]).1

/-! ## The in-memory group tree (demo.py and chat.py session state)

`groups` is a list of dictionaries `name / ideas / subgroups`; a subgroup is
`name / ideas`.  `apply_result` in demo.py (and its twin in chat.py) mutates
this state.
-/

namespace Tree

/-- A subgroup node: a name and its idea strings in insertion order. -/
structure Subgroup where
  name : String
  ideas : List String
deriving DecidableEq, Repr

/-- A group node: name, root ideas, subgroups, all in insertion order. -/
structure Group where
  name : String
  ideas : List String
  subgroups : List Subgroup
deriving DecidableEq, Repr

/-- Python string truthiness on an optional field: `None` and `""` are falsy. -/
def truthyStr : Option String → Option String
  | none => none
  | some s => if s = "" then none else some s

/-- The list comprehension `[x for x in ideas if x != idea]`: remove every
exact copy of the idea. -/
def removeIdea (i : String) (l : List String) : List String :=
  l.filter fun x => x != i

/-- Delete with an explicit subgroup name: `next` finds the first subgroup of
that name and its ideas are filtered; no match leaves the list unchanged. -/
def delInNamedSub (sp i : String) : List Subgroup → List Subgroup
  | [] => []
  | sb :: rest =>
    if sb.name = sp then { sb with ideas := removeIdea i sb.ideas } :: rest
    else sb :: delInNamedSub sp i rest

/-- Delete without a subgroup once the root misses: the first subgroup whose
idea list contains the idea exactly is filtered, then the loop breaks. -/
def delInFirstSub (i : String) : List Subgroup → List Subgroup
  | [] => []
  | sb :: rest =>
    if i ∈ sb.ideas then { sb with ideas := removeIdea i sb.ideas } :: rest
    else sb :: delInFirstSub i rest

/-- Delete inside the located group: with a (truthy) subgroup name only that
subgroup is touched; otherwise the root ideas are searched first and only
if the idea is not there the subgroups are scanned in order. -/
def delInGroup (sp? : Option String) (i : String) (g : Group) : Group :=
  match truthyStr sp? with
  | some sp => { g with subgroups := delInNamedSub sp i g.subgroups }
  | none =>
    if i ∈ g.ideas then { g with ideas := removeIdea i g.ideas }
    else { g with subgroups := delInFirstSub i g.subgroups }

/-- `next((p for p in groups if p["name"] == pname), None)` followed by an
in-place mutation of the found group: update the first name match. -/
def updFirstGroup (gname : String) (f : Group → Group) : List Group → List Group
  | [] => []
  | g :: gs => if g.name = gname then f g :: gs else g :: updFirstGroup gname f gs

/-- The delete branch of `apply_result` (demo.py lines 137-156 and the
identical chat.py lines 26-41): nothing happens unless the group is present
and the idea is truthy. -/
def deleteApply (g? sp? i? : Option String) (gs : List Group) : List Group :=
  match g?, truthyStr i? with
  | some gname, some i => updFirstGroup gname (delInGroup sp? i) gs
  | _, _ => gs

end Tree

/-! ## demo.py — `apply_result` (the tree reconciler) -/

namespace Demo

/-- The `rename_group` payload: `old_name` and `new_name`. -/
structure RenameGroup where
  old_name : String
  new_name : String
deriving DecidableEq, Repr

/-- The fields of a classification result that `apply_result` consults. -/
structure DemoResult where
  action : Option String := none
  group : String
  subgroup : Option String := none
  idea : Option String := none
  inherit_parent_ideas : Bool := false
  rename_group : Option RenameGroup := none
deriving DecidableEq, Repr

/-- Rename the first group whose name equals the old name, then stop. -/
def renameFirst (old new : String) : List Tree.Group → List Tree.Group
  | [] => []
  | g :: gs =>
    if g.name = old then { g with name := new } :: gs
    else g :: renameFirst old new gs

/-- `if idea and idea not in ideas: ideas.append(idea)`: append a truthy idea
not yet present verbatim. -/
def addIdea (i? : Option String) (l : List String) : List String :=
  match Tree.truthyStr i? with
  | none => l
  | some i => if i ∈ l then l else l ++ [i]

/-- Find-or-create of the subgroup: the first subgroup of that name receives
the idea; a missing subgroup is created at the end, seeded with a copy of
the parent root ideas when `inherit_parent_ideas` is set. -/
def addToSubs (r : DemoResult) (sp : String) (rootIdeas : List String) :
    List Tree.Subgroup → List Tree.Subgroup
  | [] => [⟨sp, addIdea r.idea (if r.inherit_parent_ideas then rootIdeas else [])⟩]
  | sb :: rest =>
    if sb.name = sp then { sb with ideas := addIdea r.idea sb.ideas } :: rest
    else sb :: addToSubs r sp rootIdeas rest

/-- Content addition once the target group is located or created. -/
def addToGroup (r : DemoResult) (g : Tree.Group) : Tree.Group :=
  match Tree.truthyStr r.subgroup with
  | some sp => { g with subgroups := addToSubs r sp g.ideas g.subgroups }
  | none => { g with ideas := addIdea r.idea g.ideas }

/-- Find-or-create of the target group: the first group of that name is
updated, otherwise a fresh group is appended at the end of the list. -/
def addApply (r : DemoResult) : List Tree.Group → List Tree.Group
  | [] => [addToGroup r ⟨r.group, [], []⟩]
  | g :: gs =>
    if g.name = r.group then addToGroup r g :: gs
    else g :: addApply r gs

/-- `apply_result` (demo.py lines 134-185): the delete branch, else the
rename (applied first) followed by the add path. -/
def applyResult (r : DemoResult) (gs : List Tree.Group) : List Tree.Group :=
  if r.action = some "delete" then
    Tree.deleteApply (some r.group) r.subgroup r.idea gs
  else
    let gs1 := match r.rename_group with
      | some rn => renameFirst rn.old_name rn.new_name gs
      | none => gs
    addApply r gs1

/-- Apply an ordered batch of results left to right. -/
def applyBatch (gs : List Tree.Group) (b : List DemoResult) : List Tree.Group :=
  b.foldl (fun s r => applyResult r s) gs

/-! Invariants for the idempotence proof: after a mutation is applied, the
first group of its name carries its content, and pure add mutations without
rename preserve that fact. -/

/-- The idea of the mutation, when truthy, is present in the list. -/
def ideaDone (i? : Option String) (l : List String) : Prop :=
  ∀ i, Tree.truthyStr i? = some i → i ∈ l

/-- The first subgroup named `sp` exists and carries the mutation's idea. -/
def subsDone (r : DemoResult) (sp : String) : List Tree.Subgroup → Prop
  | [] => False
  | sb :: rest => if sb.name = sp then ideaDone r.idea sb.ideas else subsDone r sp rest

/-- Within a group, the mutation's content is already present. -/
def groupDone (r : DemoResult) (g : Tree.Group) : Prop :=
  match Tree.truthyStr r.subgroup with
  | some sp => subsDone r sp g.subgroups
  | none => ideaDone r.idea g.ideas

/-- The first group named after the mutation exists and carries its content. -/
def appliedIn (r : DemoResult) : List Tree.Group → Prop
  | [] => False
  | g :: gs => if g.name = r.group then groupDone r g else appliedIn r gs

/-- An add mutation without rename (the amended idempotence hypothesis). -/
def pureAdd (r : DemoResult) : Prop :=
  r.action ≠ some "delete" ∧ r.rename_group = none

theorem addIdea_done (i? : Option String) (l : List String) :
    ideaDone i? (addIdea i? l) := by
  intro i hi
  unfold addIdea
  rw [hi]
  by_cases h : i ∈ l
  · simp [h]
  · simp [h]

theorem addIdea_mem (i? : Option String) {x : String} {l : List String}
    (hx : x ∈ l) : x ∈ addIdea i? l := by
  unfold addIdea
  cases Tree.truthyStr i? with
  | none => exact hx
  | some i =>
    by_cases h : i ∈ l
    · simpa [h] using hx
    · simp [h, List.mem_append]
      exact Or.inl hx

theorem addIdea_of_done (i? : Option String) (l : List String)
    (h : ideaDone i? l) : addIdea i? l = l := by
  unfold addIdea
  cases hi : Tree.truthyStr i? with
  | none => rfl
  | some i => simp [h i hi]

theorem addToSubs_establishes (r : DemoResult) (sp : String)
    (root : List String) (subs : List Tree.Subgroup) :
    subsDone r sp (addToSubs r sp root subs) := by
  induction subs with
  | nil => simp [addToSubs, subsDone, addIdea_done]
  | cons sb rest ih =>
    by_cases h : sb.name = sp
    · simp [addToSubs, subsDone, h, addIdea_done]
    · simp [addToSubs, subsDone, h, ih]

theorem subsDone_cons (r : DemoResult) (sp : String) (sb : Tree.Subgroup)
    (rest : List Tree.Subgroup) :
    subsDone r sp (sb :: rest) =
      if sb.name = sp then ideaDone r.idea sb.ideas else subsDone r sp rest := rfl

theorem addToSubs_preserves (r r' : DemoResult) (sp sp' : String)
    (root : List String) (subs : List Tree.Subgroup)
    (h : subsDone r' sp' subs) :
    subsDone r' sp' (addToSubs r sp root subs) := by
  induction subs with
  | nil => exact absurd h (by simp [subsDone])
  | cons sb rest ih =>
    rw [subsDone_cons] at h
    by_cases hsp : sb.name = sp
    · rw [addToSubs, if_pos hsp, subsDone_cons]
      by_cases hsp' : sb.name = sp'
      · rw [if_pos hsp'] at h
        rw [if_pos (show ({ sb with ideas := addIdea r.idea sb.ideas } :
          Tree.Subgroup).name = sp' from hsp')]
        exact fun i hi => addIdea_mem r.idea (h i hi)
      · rw [if_neg hsp'] at h
        rw [if_neg (show ¬ ({ sb with ideas := addIdea r.idea sb.ideas } :
          Tree.Subgroup).name = sp' from hsp')]
        exact h
    · rw [addToSubs, if_neg hsp, subsDone_cons]
      by_cases hsp' : sb.name = sp'
      · rw [if_pos hsp'] at h
        rw [if_pos hsp']
        exact h
      · rw [if_neg hsp'] at h
        rw [if_neg hsp']
        exact ih h

theorem addToSubs_id (r : DemoResult) (sp : String) (root : List String)
    (subs : List Tree.Subgroup) (h : subsDone r sp subs) :
    addToSubs r sp root subs = subs := by
  induction subs with
  | nil => exact absurd h (by simp [subsDone])
  | cons sb rest ih =>
    rw [subsDone_cons] at h
    by_cases hsp : sb.name = sp
    · rw [if_pos hsp] at h
      rw [addToSubs, if_pos hsp, addIdea_of_done r.idea sb.ideas h]
    · rw [if_neg hsp] at h
      rw [addToSubs, if_neg hsp, ih h]

theorem groupDone_none (r : DemoResult) (g : Tree.Group)
    (hs : Tree.truthyStr r.subgroup = none) :
    groupDone r g ↔ ideaDone r.idea g.ideas := by
  unfold groupDone
  rw [hs]

theorem groupDone_some (r : DemoResult) (g : Tree.Group) (sp : String)
    (hs : Tree.truthyStr r.subgroup = some sp) :
    groupDone r g ↔ subsDone r sp g.subgroups := by
  unfold groupDone
  rw [hs]

theorem addToGroup_none (r : DemoResult) (g : Tree.Group)
    (hs : Tree.truthyStr r.subgroup = none) :
    addToGroup r g = { g with ideas := addIdea r.idea g.ideas } := by
  unfold addToGroup
  rw [hs]

theorem addToGroup_some (r : DemoResult) (g : Tree.Group) (sp : String)
    (hs : Tree.truthyStr r.subgroup = some sp) :
    addToGroup r g = { g with subgroups := addToSubs r sp g.ideas g.subgroups } := by
  unfold addToGroup
  rw [hs]

theorem addToGroup_establishes (r : DemoResult) (g : Tree.Group) :
    groupDone r (addToGroup r g) := by
  cases hs : Tree.truthyStr r.subgroup with
  | none =>
    rw [groupDone_none r _ hs, addToGroup_none r g hs]
    exact addIdea_done r.idea g.ideas
  | some sp =>
    rw [groupDone_some r _ sp hs, addToGroup_some r g sp hs]
    exact addToSubs_establishes r sp g.ideas g.subgroups

theorem addToGroup_name (r : DemoResult) (g : Tree.Group) :
    (addToGroup r g).name = g.name := by
  cases hs : Tree.truthyStr r.subgroup with
  | none => rw [addToGroup_none r g hs]
  | some sp => rw [addToGroup_some r g sp hs]

theorem addToGroup_preserves (r r' : DemoResult) (g : Tree.Group)
    (h : groupDone r' g) : groupDone r' (addToGroup r g) := by
  cases hs : Tree.truthyStr r.subgroup with
  | none =>
    rw [addToGroup_none r g hs]
    cases hs' : Tree.truthyStr r'.subgroup with
    | none =>
      rw [groupDone_none r' _ hs'] at h ⊢
      exact fun i hi => addIdea_mem r.idea (h i hi)
    | some sp' =>
      rw [groupDone_some r' _ sp' hs'] at h ⊢
      exact h
  | some sp =>
    rw [addToGroup_some r g sp hs]
    cases hs' : Tree.truthyStr r'.subgroup with
    | none =>
      rw [groupDone_none r' _ hs'] at h ⊢
      exact h
    | some sp' =>
      rw [groupDone_some r' _ sp' hs'] at h ⊢
      exact addToSubs_preserves r r' sp sp' g.ideas g.subgroups h

theorem addToGroup_id (r : DemoResult) (g : Tree.Group)
    (h : groupDone r g) : addToGroup r g = g := by
  cases hs : Tree.truthyStr r.subgroup with
  | none =>
    rw [groupDone_none r _ hs] at h
    rw [addToGroup_none r g hs, addIdea_of_done r.idea g.ideas h]
  | some sp =>
    rw [groupDone_some r _ sp hs] at h
    rw [addToGroup_some r g sp hs, addToSubs_id r sp g.ideas g.subgroups h]

theorem addApply_establishes (r : DemoResult) (gs : List Tree.Group) :
    appliedIn r (addApply r gs) := by
  induction gs with
  | nil =>
    simp only [addApply, appliedIn]
    rw [if_pos (addToGroup_name r ⟨r.group, [], []⟩)]
    exact addToGroup_establishes r ⟨r.group, [], []⟩
  | cons g gs ih =>
    by_cases h : g.name = r.group
    · simp only [addApply, if_pos h, appliedIn]
      rw [if_pos ((addToGroup_name r g).trans h)]
      exact addToGroup_establishes r g
    · simp only [addApply, if_neg h, appliedIn, if_neg h]
      exact ih

theorem addApply_preserves (r r' : DemoResult) (gs : List Tree.Group)
    (h : appliedIn r' gs) : appliedIn r' (addApply r gs) := by
  induction gs with
  | nil => exact absurd h (by simp [appliedIn])
  | cons g gs ih =>
    by_cases hg : g.name = r.group
    · simp only [addApply, if_pos hg, appliedIn, addToGroup_name]
      by_cases hg' : g.name = r'.group
      · rw [if_pos hg']
        simp only [appliedIn, if_pos hg'] at h
        exact addToGroup_preserves r r' g h
      · rw [if_neg hg']
        simpa only [appliedIn, if_neg hg'] using h
    · simp only [addApply, if_neg hg, appliedIn]
      by_cases hg' : g.name = r'.group
      · rw [if_pos hg']
        simpa only [appliedIn, if_pos hg'] using h
      · rw [if_neg hg']
        simp only [appliedIn, if_neg hg'] at h
        exact ih h

theorem addApply_id (r : DemoResult) (gs : List Tree.Group)
    (h : appliedIn r gs) : addApply r gs = gs := by
  induction gs with
  | nil => exact absurd h (by simp [appliedIn])
  | cons g gs ih =>
    by_cases hg : g.name = r.group
    · simp only [appliedIn, if_pos hg] at h
      simp [addApply, hg, addToGroup_id r g h]
    · simp only [appliedIn, if_neg hg] at h
      simp [addApply, hg, ih h]

theorem applyResult_eq_add (r : DemoResult) (gs : List Tree.Group)
    (h : pureAdd r) : applyResult r gs = addApply r gs := by
  unfold applyResult
  rw [if_neg h.1, h.2]

theorem batch_preserves (r' : DemoResult) (b : List DemoResult)
    (hb : ∀ m ∈ b, pureAdd m) :
    ∀ gs, appliedIn r' gs → appliedIn r' (applyBatch gs b) := by
  induction b with
  | nil => intro gs h; exact h
  | cons r rest ih =>
    intro gs h
    have hstep : applyBatch gs (r :: rest) = applyBatch (applyResult r gs) rest := rfl
    rw [hstep, applyResult_eq_add r gs (hb r (by simp))]
    exact ih (fun m hm => hb m (by simp [hm])) _
      (addApply_preserves r r' gs h)

theorem batch_establishes (b : List DemoResult) (hb : ∀ m ∈ b, pureAdd m) :
    ∀ gs, ∀ m ∈ b, appliedIn m (applyBatch gs b) := by
  induction b with
  | nil => intro gs m hm; exact absurd hm (by simp)
  | cons r rest ih =>
    intro gs m hm
    have hstep : applyBatch gs (r :: rest) = applyBatch (applyResult r gs) rest := rfl
    rw [hstep, applyResult_eq_add r gs (hb r (by simp))]
    rcases List.mem_cons.mp hm with rfl | hm'
    · exact batch_preserves m rest (fun x hx => hb x (by simp [hx])) _
        (addApply_establishes m gs)
    · exact ih (fun x hx => hb x (by simp [hx])) _ m hm'

theorem batch_id (b : List DemoResult) (gs : List Tree.Group)
    (hb : ∀ m ∈ b, pureAdd m ∧ appliedIn m gs) : applyBatch gs b = gs := by
  induction b with
  | nil => rfl
  | cons r rest ih =>
    have hstep : applyBatch gs (r :: rest) = applyBatch (applyResult r gs) rest := rfl
    rw [hstep, applyResult_eq_add r gs (hb r (by simp)).1,
      addApply_id r gs (hb r (by simp)).2]
    exact ih fun m hm => hb m (by simp [hm])

end Demo

/-- `C1` counterexample: a single add mutation carrying a rename whose old
name equals its own group name is not idempotent: from the empty store, one
application yields one group, a second application renames it away and
creates a duplicate. -/
theorem C1_counterexample :
    Demo.applyBatch
        (Demo.applyBatch []
          [{ action := none, group := "g", idea := some "x",
             rename_group := some ⟨"g", "h"⟩ }])
        [{ action := none, group := "g", idea := some "x",
           rename_group := some ⟨"g", "h"⟩ }] ≠
      Demo.applyBatch []
        [{ action := none, group := "g", idea := some "x",
           rename_group := some ⟨"g", "h"⟩ }] := by
  decide

/-- `C1` (amended): for every batch of add mutations carrying no rename,
applying the batch a second time to the state produced by the first
application changes nothing — ideas are deduplicated by exact membership,
groups and subgroups by exact name — so the stored tree after two
applications equals the tree after one. -/
theorem C1_theorem (b : List Demo.DemoResult) (gs : List Tree.Group)
    (hb : ∀ m ∈ b, m.action ≠ some "delete" ∧ m.rename_group = none) :
    Demo.applyBatch (Demo.applyBatch gs b) b = Demo.applyBatch gs b :=
  Demo.batch_id b (Demo.applyBatch gs b) fun m hm =>
    ⟨hb m hm, Demo.batch_establishes b hb gs m hm⟩

/-- Witness for `C1_theorem`: a two-mutation batch (create a group with one
idea, then add a second idea to a subgroup) is idempotent on the empty
store. -/
theorem C1_witness :
    Demo.applyBatch
        (Demo.applyBatch []
          [{ action := none, group := "compras", idea := some "pan" },
           { action := none, group := "compras", subgroup := some "super",
             idea := some "leche", inherit_parent_ideas := true }])
        [{ action := none, group := "compras", idea := some "pan" },
         { action := none, group := "compras", subgroup := some "super",
           idea := some "leche", inherit_parent_ideas := true }] =
      Demo.applyBatch []
        [{ action := none, group := "compras", idea := some "pan" },
         { action := none, group := "compras", subgroup := some "super",
           idea := some "leche", inherit_parent_ideas := true }] :=
  C1_theorem
    [{ action := none, group := "compras", idea := some "pan" },
     { action := none, group := "compras", subgroup := some "super",
       idea := some "leche", inherit_parent_ideas := true }]
    [] (by decide)

/-! ## app/ai_bridge.py — `delete_entries_matching`

The backend keeps the tree flattened into `InboxEntry` rows whose `tags`
column is `"group[,subgroup]"` and whose `summary` is the idea.  The delete
helper lowercases the query fields, scans every processed entry, and marks
every match `discarded`.
-/

namespace Bridge

/-- An `InboxEntry` row (the fields `delete_entries_matching` reads). -/
structure InboxEntry where
  content : String := ""
  tags : String := ""
  summary : String := ""
  status : String := "pending"
deriving DecidableEq, Repr

/-- The fields of the AI result dict the delete helper reads. -/
structure AiDelete where
  group : Option String := none
  subgroup : Option String := none
  idea : Option String := none
deriving DecidableEq, Repr

/-- Python `(x or "")` on an optional string field. -/
def orEmpty (o : Option String) : String := o.getD ""

/-- Python `s.lower().strip()`. -/
def lowerStrip (s : String) : String := ⟨pyStrip (s.data.map Char.toLower)⟩

/-- Python `s.split(",")` on a character list. -/
def splitComma : List Char → List (List Char)
  | [] => [[]]
  | c :: r =>
    if c = ',' then [] :: splitComma r
    else
      match splitComma r with
      | [] => [[c]]
      | h :: t => (c :: h) :: t

/-- `[t.strip().lower() for t in tags.split(",") if t.strip()]`. -/
def tagParts (tags : String) : List String :=
  (((splitComma tags.data).map pyStrip).filter fun l => l ≠ []).map
    fun l => (⟨l.map Char.toLower⟩ : String)

/-- The per-entry match condition of the scan loop: group must agree; with an
idea, the subgroup (when given) must agree and the lowered idea and stored
summary must contain one another; with no idea but a subgroup, the subgroup
must agree; with neither, any entry of the group matches. -/
def entryMatches (group subgroup idea : String) (e : InboxEntry) : Bool :=
  let parts := tagParts e.tags
  let eg := (parts.get? 0).getD ""
  let es := (parts.get? 1).getD ""
  let ei := lowerStr e.summary
  if eg ≠ group then false
  else if idea ≠ "" then
    if subgroup ≠ "" && es ≠ subgroup then false
    else containsSub idea.data ei.data || containsSub ei.data idea.data
  else if subgroup ≠ "" then es = subgroup
  else true

/-- `delete_entries_matching`: lowercase and strip the query fields, return
the rows with every processed match marked `discarded`, together with the
list of matches in scan order.  An empty group is a no-op. -/
def deleteEntriesMatching (ai : AiDelete) (entries : List InboxEntry) :
    List InboxEntry × List InboxEntry :=
  let group := lowerStrip (orEmpty ai.group)
  let subgroup := lowerStrip (orEmpty ai.subgroup)
  let idea := lowerStrip (orEmpty ai.idea)
  if group = "" then (entries, [])
  else
    let hit := fun e => e.status = "processed" && entryMatches group subgroup idea e
    (entries.map fun e => if hit e then { e with status := "discarded" } else e,
     entries.filter hit)

end Bridge

/-- `C5` counterexample.  First: the claim promises fuzzy matching in the
reconciler, but the reconciler removes only exact copies — the repository's
own fuzzy rule `_similar` matches `"leche"` against stored `"leche fresca"`,
yet the delete mutation `idea="leche"`, `subgroup=None` leaves the tree
unchanged.  Second: the DB-level delete does match fuzzily, but removes
every match instead of stopping after the first removal — two entries in
different subgroups are both discarded. -/
theorem C5_counterexample :
    (AppMain.similar "leche" "leche fresca" = true ∧
      Tree.deleteApply (some "g") none (some "leche")
          [⟨"g", ["leche fresca"], []⟩] =
        [⟨"g", ["leche fresca"], []⟩]) ∧
    (Bridge.deleteEntriesMatching { group := some "g", idea := some "leche" }
        [{ content := "a", tags := "g,s1", summary := "leche fresca",
           status := "processed" },
         { content := "b", tags := "g,s2", summary := "leche entera",
           status := "processed" }]).2.length = 2 := by
  refine ⟨⟨?_, ?_⟩, ?_⟩ <;> rfl

/-- `C5` (amended): for a delete mutation with a non-empty idea and no
subgroup, the reconciler updates only the first group of the target name;
inside it, if the idea is exactly present among the root ideas only the
root list is filtered; otherwise the root is untouched and the first
subgroup exactly containing the idea is filtered while every other
subgroup is preserved (nothing happens when no subgroup contains it).
Matching is exact string equality, not fuzzy containment. -/
theorem C5_theorem (g : Tree.Group) (i : String) :
    (∀ gs gname, i ≠ "" →
      Tree.deleteApply (some gname) none (some i) gs =
        Tree.updFirstGroup gname (Tree.delInGroup none i) gs) ∧
    (i ∈ g.ideas →
      Tree.delInGroup none i g = { g with ideas := Tree.removeIdea i g.ideas }) ∧
    (i ∉ g.ideas →
      (Tree.delInGroup none i g).ideas = g.ideas ∧
      ((∀ sb ∈ g.subgroups, i ∉ sb.ideas) → Tree.delInGroup none i g = g) ∧
      (∀ pre sb post, g.subgroups = pre ++ sb :: post →
        (∀ x ∈ pre, i ∉ x.ideas) → i ∈ sb.ideas →
        (Tree.delInGroup none i g).ideas = g.ideas ∧
        (Tree.delInGroup none i g).subgroups =
          pre ++ { sb with ideas := Tree.removeIdea i sb.ideas } :: post)) := by
  have hfirst : ∀ (pre : List Tree.Subgroup) (sb : Tree.Subgroup)
      (post : List Tree.Subgroup), (∀ x ∈ pre, i ∉ x.ideas) → i ∈ sb.ideas →
      Tree.delInFirstSub i (pre ++ sb :: post) =
        pre ++ { sb with ideas := Tree.removeIdea i sb.ideas } :: post := by
    intro pre
    induction pre with
    | nil =>
      intro sb post _ hin
      simp [Tree.delInFirstSub, hin]
    | cons x rest ih =>
      intro sb post hpre hin
      have hx : i ∉ x.ideas := hpre x (by simp)
      simp only [List.cons_append, Tree.delInFirstSub, if_neg hx, List.append_eq]
      rw [ih sb post (fun y hy => hpre y (by simp [hy])) hin]
  have hnone : ∀ subs : List Tree.Subgroup, (∀ sb ∈ subs, i ∉ sb.ideas) →
      Tree.delInFirstSub i subs = subs := by
    intro subs
    induction subs with
    | nil => intro _; rfl
    | cons sb rest ih =>
      intro h
      have hsb : i ∉ sb.ideas := h sb (by simp)
      simp only [Tree.delInFirstSub, if_neg hsb]
      rw [ih fun y hy => h y (by simp [hy])]
  refine ⟨?_, ?_, ?_⟩
  · intro gs gname hi
    unfold Tree.deleteApply
    have ht : Tree.truthyStr (some i) = some i := by
      simp only [Tree.truthyStr, if_neg hi]
    rw [ht]
  · intro hin
    unfold Tree.delInGroup
    simp [Tree.truthyStr, hin]
  · intro hout
    have hd : Tree.delInGroup none i g =
        { g with subgroups := Tree.delInFirstSub i g.subgroups } := by
      unfold Tree.delInGroup
      simp [Tree.truthyStr, hout]
    refine ⟨by rw [hd], ?_, ?_⟩
    · intro hall
      rw [hd, hnone g.subgroups hall]
    · intro pre sb post hsplit hpre hin
      rw [hd, hsplit, hfirst pre sb post hpre hin]
      exact ⟨rfl, rfl⟩

/-- Witness for `C5_theorem`: the spec's own delete-resolution example — the
group `compras` with root ideas `leche, pan` after deleting `leche` keeps
exactly `pan`. -/
theorem C5_witness :
    Tree.delInGroup none "leche" ⟨"compras", ["leche", "pan"], []⟩ =
      { (⟨"compras", ["leche", "pan"], []⟩ : Tree.Group) with
        ideas := Tree.removeIdea "leche" ["leche", "pan"] } :=
  ( C5_theorem ⟨"compras", ["leche", "pan"], []⟩ "leche").2.1 (by decide)

/-! ## ai-service/classifier.py — the classification normalizer

`classify_note` decodes the oracle output and post-processes it through
`_build_single_result`: delete-intent keyword override, mentioned-group
override, predefined-category override with the routine-activity subgroup
map, and the rename-integrity rule; batches force the structural flags to
false/null on every element after the first.
-/

namespace Classifier

/-- The `rename_group` payload of a classification result. -/
structure RenamePair where
  old_name : String
  new_name : String
deriving DecidableEq, Repr

/-- The decoded oracle proposal: the dict fields `_build_single_result`
reads, each optional (`none` models a missing key or JSON null). -/
structure RawItem where
  makes_sense : Option Bool := none
  reason : Option String := none
  action : Option String := none
  group : Option String := none
  subgroup : Option String := none
  idea : Option String := none
  is_new_group : Option Bool := none
  is_new_subgroup : Option Bool := none
  inherit_parent_ideas : Option Bool := none
  rename_group : Option RenamePair := none
deriving DecidableEq, Repr

/-- `ClassificationResult` (ai-service/models.py) with its pydantic defaults. -/
structure ClassificationResult where
  action : String := "add"
  makes_sense : Bool := true
  reason : Option String := none
  group : Option String := none
  subgroup : Option String := none
  idea : Option String := none
  is_new_group : Bool := false
  is_new_subgroup : Bool := false
  inherit_parent_ideas : Bool := false
  rename_group : Option RenamePair := none
deriving DecidableEq, Repr

/-- An element of `existing_groups`; the classifier reads only its name. -/
structure GroupInfo where
  name : String
deriving DecidableEq, Repr

/-- `PREDEFINED_CATEGORIES`. -/
def PREDEFINED_CATEGORIES : List String :=
  ["rutina diaria", "compras", "trabajo/clase", "finanzas",
   "viajes", "vida social", "citas"]

/-- `_CATEGORY_KEYWORDS`, in dict insertion order. -/
def CATEGORY_KEYWORDS : List (String × List String) :=
  [("rutina diaria",
    ["dormir", "despertar", "levantarme", "levantarse", "acostarme",
     "acostarse", "desayunar", "desayuno", "almorzar", "almuerzo",
     "comer a las", "merendar", "merienda", "cenar", "cena",
     "ducharme", "ducharse", "meditar", "rutina", "hábito", "horario de",
     "hacer deporte", "deporte", "nadar", "natación", "natacion",
     "correr", "running", "yoga", "ciclismo", "bici ", "bicicleta",
     "entrenar", "entrenamiento", "pilates", "boxeo", "gimnasio", "gym"]),
   ("compras", ["comprar ", "necesito comprar", "tengo que comprar"]),
   ("trabajo/clase",
    ["examen", "entrega", "trabajo de clase", "reunión de trabajo",
     "presentación del trabajo"]),
   ("finanzas",
    ["pagar el recibo", "pagar la factura", "pagar impuesto",
     "recibo de", "factura de", "mi sueldo", "mis ahorros"]),
   ("viajes",
    ["viaje a ", "viajar a ", "vuelo a ", "reservar hotel",
     "billete de avión", "de vacaciones"]),
   ("vida social",
    ["quedar con ", "quedada con ", "cena con ", "comida con ",
     "fiesta de ", "cumpleaños de "]),
   ("citas",
    ["cita con el ", "cita médica", "cita con mi ", "ir al dentista",
     "ir al médico", "cita con el dentista", "cita con el médico"])]

/-- `_RUTINA_ACTIVITY_MAP`, in dict insertion order. -/
def RUTINA_ACTIVITY_MAP : List (String × String) :=
  [("dormir", "dormir"), ("acostarme", "dormir"), ("acostarse", "dormir"),
   ("levantarme", "levantarse"), ("levantarse", "levantarse"),
   ("despertar", "levantarse"), ("despertarme", "levantarse"),
   ("desayunar", "desayuno"), ("desayuno", "desayuno"),
   ("almorzar", "almuerzo"), ("almuerzo", "almuerzo"),
   ("comer", "comer"), ("merendar", "merienda"), ("merienda", "merienda"),
   ("cenar", "cena"), ("cena", "cena"),
   ("ducharme", "ducha"), ("ducharse", "ducha"), ("ducha", "ducha"),
   ("meditar", "meditación"), ("meditación", "meditación"),
   ("deporte", "deporte"), ("hacer deporte", "deporte"),
   ("nadar", "deporte"), ("natación", "deporte"), ("natacion", "deporte"),
   ("correr", "deporte"), ("running", "deporte"), ("yoga", "deporte"),
   ("ciclismo", "deporte"), ("bicicleta", "deporte"), ("pilates", "deporte"),
   ("boxeo", "deporte"), ("ejercicio", "deporte"), ("entrenar", "deporte"),
   ("entrenamiento", "deporte"), ("gimnasio", "deporte"), ("gym", "deporte"),
   ("estudiar", "estudio")]

/-- The physical-activity keywords of `_RUTINA_ACTIVITY_MAP` (the entries the
prompt's sport rule lists, all normalized to the shared subgroup). -/
def physicalActivities : List String :=
  ["nadar", "natación", "natacion", "correr", "running", "yoga",
   "ciclismo", "bicicleta", "pilates", "boxeo", "ejercicio", "entrenar",
   "entrenamiento", "gimnasio", "gym"]

/-- `_DELETE_KEYWORDS`. -/
def DELETE_KEYWORDS : List String :=
  ["elimina ", "eliminar ", "elimina la", "eliminar la",
   "borra ", "borrar ", "borra la", "borrar la",
   "quita ", "quitar ", "quita la", "quitar la",
   "ya no quiero", "descarta ", "descartar ",
   "bórralo", "bórrala", "elimínalo", "elimínala",
   "ya no necesito", "tacha ", "tachar "]

/-- Python `kw in hay` on strings. -/
def strContains (kw hay : String) : Bool := containsSub kw.data hay.data

/-- `_guess_predefined_category`: the first category whose keyword set has a
match inside the lowered note. -/
def guessPredefinedCategory (note : String) : Option String :=
  (CATEGORY_KEYWORDS.find? fun p =>
    p.2.any fun kw => strContains kw (lowerStr note)).map Prod.fst

/-- `_extract_rutina_subproject`: the first activity keyword contained in
the lowered note, mapped to its normalized subgroup name. -/
def extractRutinaSubproject (note : String) : Option String :=
  (RUTINA_ACTIVITY_MAP.find? fun p =>
    strContains p.1 (lowerStr note)).map Prod.snd

/-- `_is_delete_intent`. -/
def isDeleteIntent (note : String) : Bool :=
  DELETE_KEYWORDS.any fun kw => strContains kw (lowerStr note)

/-- `_find_mentioned_group`: the first existing group whose lowered name is
a substring of the lowered note. -/
def findMentionedGroup (note : String) (existing : List GroupInfo) :
    Option String :=
  (existing.find? fun p =>
    strContains (lowerStr p.name) (lowerStr note)).map GroupInfo.name

/-- `action = data.get("action", "add").lower()` followed by the delete
keyword override. -/
def effectiveAction (d : RawItem) (note : String) : String :=
  let a := lowerStr (d.action.getD "add")
  if a ≠ "delete" ∧ isDeleteIntent note then "delete" else a

/-- The mentioned-group override: when the oracle wants a new group but the
note literally names an existing one, reuse it and clear the flag. -/
def mentionResolved (d : RawItem) (note : String) (existing : List GroupInfo) :
    String × Bool :=
  let group := d.group.getD ""
  let ing := d.is_new_group.getD false
  if ing = true ∧ existing ≠ [] then
    match findMentionedGroup note existing with
    | some m => (m, false)
    | none => (group, ing)
  else (group, ing)

/-- The predefined-category override (classifier.py lines 986-998): returns
the final group, `is_new_group`, and the possibly mutated `subgroup` /
`is_new_subgroup` fields of the data dict. -/
def predefResolved (d : RawItem) (note : String) (existing : List GroupInfo) :
    String × Bool × Option String × Option Bool :=
  let (group, ing) := mentionResolved d note existing
  if lowerStr group ∉ PREDEFINED_CATEGORIES then
    match guessPredefinedCategory note with
    | some guessed =>
      let ing2 := (existing.find? fun p => lowerStr p.name = guessed).isNone
      if guessed = "rutina diaria" ∧ (d.subgroup.getD "") = "" then
        match extractRutinaSubproject note with
        | some es => (guessed, ing2, some es, some true)
        | none => (guessed, ing2, d.subgroup, d.is_new_subgroup)
      else (guessed, ing2, d.subgroup, d.is_new_subgroup)
    | none => (group, ing, d.subgroup, d.is_new_subgroup)
  else (group, ing, d.subgroup, d.is_new_subgroup)

/-- `_build_single_result`: no-sense short circuit, delete branch, then the
add branch with overrides and the rename-integrity rule. -/
def buildSingleResult (d : RawItem) (note : String) (existing : List GroupInfo) :
    ClassificationResult :=
  if (d.makes_sense.getD true) = false then
    { makes_sense := false,
      reason := some (d.reason.getD "La nota no expresa una idea clasificable.") }
  else if effectiveAction d note = "delete" then
    { action := "delete", makes_sense := true,
      group := Tree.truthyStr d.group, subgroup := Tree.truthyStr d.subgroup,
      idea := Tree.truthyStr d.idea }
  else
    match predefResolved d note existing with
    | (group, ing, subF, insF) =>
      let rename := d.rename_group
      let rename := if rename.isSome ∧ ing = false then none else rename
      { action := "add", makes_sense := true,
        group := some group,
        subgroup := Tree.truthyStr subF,
        idea := d.idea,
        is_new_group := ing,
        is_new_subgroup := insF.getD false,
        inherit_parent_ideas := d.inherit_parent_ideas.getD false,
        rename_group := rename }

/-- The decoded oracle response: a single proposal object or an array of
proposal objects (non-dict array elements are already dropped, mirroring
the `isinstance(item, dict)` filter). -/
inductive RawResponse where
  | one (d : RawItem)
  | many (ds : List RawItem)

/-- The flag clearing applied to every batch element after the first. -/
def clearTailFlags (r : ClassificationResult) : ClassificationResult :=
  { r with
    is_new_group := false
    is_new_subgroup := false
    inherit_parent_ideas := false
    rename_group := none }

/-- `classify_note` after decoding (classifier.py lines 1027-1039): build
each result, then force the structural flags to false/null on every element
after the first; an empty array falls back to a no-sense result. -/
def classifyNote (resp : RawResponse) (note : String)
    (existing : List GroupInfo) : List ClassificationResult :=
  match resp with
  | .one d => [buildSingleResult d note existing]
  | .many ds =>
    match ds.map fun d => buildSingleResult d note existing with
    | [] => [{ makes_sense := false, reason := some "Respuesta vacía del LLM." }]
    | h :: t => h :: t.map clearTailFlags

theorem buildSingle_rename_inv (d : RawItem) (note : String)
    (existing : List GroupInfo)
    (h : (buildSingleResult d note existing).is_new_group = false) :
    (buildSingleResult d note existing).rename_group = none := by
  unfold buildSingleResult at h ⊢
  by_cases h1 : (d.makes_sense.getD true) = false
  · rw [if_pos h1]
  · rw [if_neg h1] at h ⊢
    by_cases h2 : effectiveAction d note = "delete"
    · rw [if_pos h2]
    · rw [if_neg h2] at h ⊢
      rcases hpr : predefResolved d note existing with ⟨group, ing, subF, insF⟩
      dsimp only at h ⊢
      simp only [hpr] at h
      cases hr : d.rename_group with
      | none => simp [hr]
      | some rn => simp [hr, h]

end Classifier

/-- `C3`: every mutation list produced by `classify_note` is internally
consistent — `rename_group` is null on every element whose `is_new_group`
is false, and every element after the first has `is_new_group`,
`is_new_subgroup` and `inherit_parent_ideas` forced to false and
`rename_group` forced to null. -/
theorem C3_theorem (resp : Classifier.RawResponse) (note : String)
    (existing : List Classifier.GroupInfo) :
    (∀ r ∈ Classifier.classifyNote resp note existing,
      r.is_new_group = false → r.rename_group = none) ∧
    (∀ r ∈ (Classifier.classifyNote resp note existing).tail,
      r.is_new_group = false ∧ r.is_new_subgroup = false ∧
      r.inherit_parent_ideas = false ∧ r.rename_group = none) := by
  constructor
  · intro r hr hflag
    cases resp with
    | one d =>
      simp only [Classifier.classifyNote, List.mem_singleton] at hr
      subst hr
      exact Classifier.buildSingle_rename_inv d note existing hflag
    | many ds =>
      simp only [Classifier.classifyNote] at hr
      cases hm : ds.map fun d => Classifier.buildSingleResult d note existing with
      | nil =>
        rw [hm] at hr
        simp only [List.mem_singleton] at hr
        subst hr
        rfl
      | cons h0 t =>
        rw [hm] at hr
        rcases List.mem_cons.mp hr with rfl | htail
        · have : r ∈ ds.map fun d => Classifier.buildSingleResult d note existing := by
            rw [hm]; exact List.mem_cons_self _ _
          rcases List.mem_map.mp this with ⟨d, _, rfl⟩
          exact Classifier.buildSingle_rename_inv d note existing hflag
        · rcases List.mem_map.mp htail with ⟨x, _, rfl⟩
          rfl
  · intro r hr
    cases resp with
    | one d =>
      simp only [Classifier.classifyNote, List.tail_cons] at hr
      exact absurd hr (List.not_mem_nil r)
    | many ds =>
      simp only [Classifier.classifyNote] at hr
      cases hm : ds.map fun d => Classifier.buildSingleResult d note existing with
      | nil =>
        rw [hm] at hr
        simp only [List.tail_cons] at hr
        exact absurd hr (List.not_mem_nil r)
      | cons h0 t =>
        rw [hm] at hr
        simp only [List.tail_cons] at hr
        rcases List.mem_map.mp hr with ⟨x, _, rfl⟩
        exact ⟨rfl, rfl, rfl, rfl⟩

/-- Witness for `C3_theorem`: a two-element batch in which the oracle set
every flag on both elements has the flags cleared on the second. -/
theorem C3_witness :
    ∀ r ∈ (Classifier.classifyNote
        (Classifier.RawResponse.many
          [{ group := some "compras", is_new_group := some true,
             is_new_subgroup := some true, inherit_parent_ideas := some true,
             rename_group := some ⟨"a", "b"⟩ },
           { group := some "compras", is_new_group := some true,
             is_new_subgroup := some true, inherit_parent_ideas := some true,
             rename_group := some ⟨"a", "b"⟩ }])
        "idea uno" []).tail,
      r.is_new_group = false ∧ r.is_new_subgroup = false ∧
      r.inherit_parent_ideas = false ∧ r.rename_group = none :=
  (C3_theorem
    (Classifier.RawResponse.many
      [{ group := some "compras", is_new_group := some true,
         is_new_subgroup := some true, inherit_parent_ideas := some true,
         rename_group := some ⟨"a", "b"⟩ },
       { group := some "compras", is_new_group := some true,
         is_new_subgroup := some true, inherit_parent_ideas := some true,
         rename_group := some ⟨"a", "b"⟩ }])
    "idea uno" []).2

/-! ### The predefined-category override (claim C4) -/

namespace Classifier

theorem truthyStr_of_ne (s : String) (h : s ≠ "") :
    Tree.truthyStr (some s) = some s := by
  simp only [Tree.truthyStr, if_neg h]

/-- `is_new_group = existing_match is None` spelled as a quantifier. -/
theorem findNone_iff (existing : List GroupInfo) (cat : String) :
    ((existing.find? fun p => lowerStr p.name = cat).isNone = true) ↔
      ∀ p ∈ existing, lowerStr p.name ≠ cat := by
  rw [Option.isNone_iff_eq_none, List.find?_eq_none]
  simp

/-- Every subgroup name in the activity map is non-empty. -/
theorem rutinaValue_ne (note : String) (es : String)
    (h : extractRutinaSubproject note = some es) : es ≠ "" := by
  unfold extractRutinaSubproject at h
  cases hf : RUTINA_ACTIVITY_MAP.find? fun p => strContains p.1 (lowerStr note) with
  | none => rw [hf] at h; exact absurd h (by simp)
  | some pr =>
    rw [hf] at h
    simp only [Option.map_some'] at h
    have hmem := List.mem_of_find?_eq_some hf
    have hall : ∀ q ∈ RUTINA_ACTIVITY_MAP, q.2 ≠ "" := by decide
    injection h with h2
    rw [← h2]
    exact hall pr hmem

/-- Unfolding of `predefResolved` when the resolved group is not predefined
and a category keyword matches. -/
theorem predefResolved_spec (d : RawItem) (note : String)
    (existing : List GroupInfo) (cat : String)
    (h3 : lowerStr (mentionResolved d note existing).1 ∉ PREDEFINED_CATEGORIES)
    (h4 : guessPredefinedCategory note = some cat) :
    predefResolved d note existing =
      if cat = "rutina diaria" ∧ (d.subgroup.getD "") = "" then
        match extractRutinaSubproject note with
        | some es =>
          (cat, (existing.find? fun p => lowerStr p.name = cat).isNone,
           some es, some true)
        | none =>
          (cat, (existing.find? fun p => lowerStr p.name = cat).isNone,
           d.subgroup, d.is_new_subgroup)
      else
        (cat, (existing.find? fun p => lowerStr p.name = cat).isNone,
         d.subgroup, d.is_new_subgroup) := by
  unfold predefResolved
  rcases hm : mentionResolved d note existing with ⟨g0, i0⟩
  rw [hm] at h3
  dsimp only at h3 ⊢
  rw [if_pos h3, h4]

end Classifier

/-- `C4`: in the add path, when the group resolved after the mentioned-group
override is not a mandatory category and the note contains a
category-indicative keyword, the normalizer forces the group to the matched
category; `is_new_group` is true exactly when no existing group bears that
(lowercased) name; when the matched category is the routine category, no
subgroup was proposed, and an activity keyword is found, the normalized
subgroup is installed with `is_new_subgroup = true`; and every
physical-activity keyword of the activity map normalizes to the single
shared subgroup `"deporte"`. -/
theorem C4_theorem (d : Classifier.RawItem) (note : String)
    (existing : List Classifier.GroupInfo) (cat : String)
    (h1 : d.makes_sense.getD true = true)
    (h2 : Classifier.effectiveAction d note ≠ "delete")
    (h3 : lowerStr (Classifier.mentionResolved d note existing).1 ∉
      Classifier.PREDEFINED_CATEGORIES)
    (h4 : Classifier.guessPredefinedCategory note = some cat) :
    (Classifier.buildSingleResult d note existing).group = some cat ∧
    ((Classifier.buildSingleResult d note existing).is_new_group = true ↔
      ∀ p ∈ existing, lowerStr p.name ≠ cat) ∧
    (cat = "rutina diaria" → (d.subgroup.getD "") = "" →
      ∀ sub, Classifier.extractRutinaSubproject note = some sub →
        (Classifier.buildSingleResult d note existing).subgroup = some sub ∧
        (Classifier.buildSingleResult d note existing).is_new_subgroup = true) ∧
    (∀ kw ∈ Classifier.physicalActivities,
      Classifier.RUTINA_ACTIVITY_MAP.lookup kw = some "deporte") := by
  have hphys : ∀ kw ∈ Classifier.physicalActivities,
      Classifier.RUTINA_ACTIVITY_MAP.lookup kw = some "deporte" := by decide
  have hns : ¬ d.makes_sense.getD true = false := by rw [h1]; simp
  unfold Classifier.buildSingleResult
  rw [if_neg hns, if_neg h2,
    Classifier.predefResolved_spec d note existing cat h3 h4]
  by_cases hrut : cat = "rutina diaria" ∧ (d.subgroup.getD "") = ""
  · rw [if_pos hrut]
    cases hex : Classifier.extractRutinaSubproject note with
    | some es =>
      dsimp only
      refine ⟨rfl, Classifier.findNone_iff existing cat, ?_, hphys⟩
      intro _ _ sub hsub
      injection hsub with hsub
      subst hsub
      exact ⟨Classifier.truthyStr_of_ne es (Classifier.rutinaValue_ne note es hex), rfl⟩
    | none =>
      dsimp only
      refine ⟨rfl, Classifier.findNone_iff existing cat, ?_, hphys⟩
      intro _ _ sub hsub
      exact absurd hsub (by simp)
  · rw [if_neg hrut]
    dsimp only
    refine ⟨rfl, Classifier.findNone_iff existing cat, ?_, hphys⟩
    intro hcat hsub _ _
    exact absurd ⟨hcat, hsub⟩ hrut

/-- Witness for `C4_theorem`: the note `"quiero nadar mas"` with oracle
proposal group `"natacion"` is forced to `"rutina diaria"`, creates the
group (no existing groups), and installs the normalized sport subgroup. -/
theorem C4_witness :
    (Classifier.buildSingleResult
        { group := some "natacion", is_new_group := some false }
        "quiero nadar mas" []).group = some "rutina diaria" ∧
    ((Classifier.buildSingleResult
        { group := some "natacion", is_new_group := some false }
        "quiero nadar mas" []).is_new_group = true ↔
      ∀ p ∈ ([] : List Classifier.GroupInfo),
        lowerStr p.name ≠ "rutina diaria") ∧
    ((Classifier.buildSingleResult
        { group := some "natacion", is_new_group := some false }
        "quiero nadar mas" []).subgroup = some "deporte" ∧
      (Classifier.buildSingleResult
        { group := some "natacion", is_new_group := some false }
        "quiero nadar mas" []).is_new_subgroup = true) := by
  have h := C4_theorem
    { group := some "natacion", is_new_group := some false }
    "quiero nadar mas" [] "rutina diaria"
    (by decide) (by decide) (by decide) (by decide)
  exact ⟨h.1, h.2.1, h.2.2.1 rfl rfl "deporte" (by decide)⟩

/-! ## The enumeration splitter (spec section 4.4, Case A)

The repository sources under src/ do not contain the splitter itself (the
spec records it as part of the normalization pipeline around
`classify_note`); the definitions below are therefore modelled from the
spec and settled against that model.
-/

namespace SpecSplit

/-- Modelled from the spec: normalize the list conjunction (Spanish `" y "`,
English `" and "`) to a comma before splitting. -/
def replaceAndComma : List Char → List Char
  | ' ' :: 'a' :: 'n' :: 'd' :: ' ' :: rest => ',' :: replaceAndComma rest
  | ' ' :: 'y' :: ' ' :: rest => ',' :: replaceAndComma rest
  | c :: rest => c :: replaceAndComma rest
  | [] => []

/-- Worker for `countWords`: the flag records whether the previous character
was inside a word. -/
def countWordsGo : Bool → List Char → Nat
  | _, [] => 0
  | inWord, c :: r =>
    if isPySpace c then countWordsGo false r
    else (if inWord then countWordsGo true r else 1 + countWordsGo true r)

/-- Number of whitespace-separated words. -/
def countWords (l : List Char) : Nat := countWordsGo false l

/-- Modelled from the spec: split the idea on commas (after conjunction
normalization), strip the parts, and accept the split only when it yields
at least two parts, every one of which has between 1 and 4 words. -/
def splitListIdea (idea : String) : Option (List String) :=
  let parts := ((Bridge.splitComma (replaceAndComma idea.data)).map
    pyStrip).filter fun l => l ≠ []
  if parts.length ≥ 2 ∧
      parts.all (fun p => 1 ≤ countWords p ∧ countWords p ≤ 4) then
    some (parts.map fun l => (⟨l⟩ : String))
  else none

/-- Modelled from the spec: the enumeration splitter.  It applies only to a
single-element batch whose mutation is a sensible add with an idea; an
accepted split yields one mutation per item, with the structural flags
preserved only on the first expanded element; a rejected split keeps the
original mutation. -/
def expandEnumeration (batch : List Classifier.ClassificationResult) :
    List Classifier.ClassificationResult :=
  match batch with
  | [m] =>
    if m.action = "add" ∧ m.makes_sense = true then
      match m.idea with
      | none => [m]
      | some idea =>
        match splitListIdea idea with
        | none => [m]
        | some parts =>
          match parts.map fun p => { m with idea := some p } with
          | [] => [m]
          | h :: t => h :: t.map Classifier.clearTailFlags
    else [m]
  | b => b

end SpecSplit

/-- `C7` (spec-modelled): the enumeration splitter expands
`idea = "pan, queso y leche"` with `group = "compras"` into exactly three
mutations with ideas `pan`, `queso`, `leche`, all in the same group, with
only the first carrying `is_new_group = true`; and any single add mutation
whose idea does not split into parts of 1 to 4 words each is kept
unchanged. -/
theorem C7_theorem :
    ((SpecSplit.expandEnumeration
        [{ action := "add", makes_sense := true, group := some "compras",
           idea := some "pan, queso y leche", is_new_group := true }]).map
        Classifier.ClassificationResult.idea =
      [some "pan", some "queso", some "leche"] ∧
     (SpecSplit.expandEnumeration
        [{ action := "add", makes_sense := true, group := some "compras",
           idea := some "pan, queso y leche", is_new_group := true }]).map
        Classifier.ClassificationResult.group =
      [some "compras", some "compras", some "compras"] ∧
     (SpecSplit.expandEnumeration
        [{ action := "add", makes_sense := true, group := some "compras",
           idea := some "pan, queso y leche", is_new_group := true }]).map
        Classifier.ClassificationResult.is_new_group = [true, false, false]) ∧
    (∀ (m : Classifier.ClassificationResult) (idea : String),
      m.action = "add" → m.makes_sense = true → m.idea = some idea →
      SpecSplit.splitListIdea idea = none →
      SpecSplit.expandEnumeration [m] = [m]) := by
  refine ⟨⟨by decide, by decide, by decide⟩, ?_⟩
  intro m idea ha hs hi hsplit
  unfold SpecSplit.expandEnumeration
  dsimp only
  rw [if_pos ⟨ha, hs⟩, hi]
  dsimp only
  rw [hsplit]

/-- Witness for `C7_theorem`: a five-word first part makes the split
rejected, keeping the original mutation. -/
theorem C7_witness :
    SpecSplit.expandEnumeration
        [{ action := "add", makes_sense := true, group := some "viajes",
           idea := some "un viaje muy largo a cancun, hotel" }] =
      [{ action := "add", makes_sense := true, group := some "viajes",
         idea := some "un viaje muy largo a cancun, hotel" }] :=
  C7_theorem.2
    { action := "add", makes_sense := true, group := some "viajes",
      idea := some "un viaje muy largo a cancun, hotel" }
    "un viaje muy largo a cancun, hotel" rfl rfl rfl (by decide)

/-! ## The deterministic reminder pre-detector (spec section 4.2)

The sources under src/ contain only the backend half (the `remind` branch
of `_process_single_ai` in app/main.py, with its five-minute fallback);
the pre-detector itself is modelled from the spec below.  Date-times are a
simple Gregorian calendar record.
-/

namespace SpecRemind

/-- A wall-clock date-time (year, month 1-12, day 1-31, hour, minute). -/
structure SDT where
  year : Nat
  month : Nat
  day : Nat
  hour : Nat
  minute : Nat
deriving DecidableEq, Repr

/-- Gregorian leap year. -/
def isLeap (y : Nat) : Bool := y % 4 = 0 && (y % 100 ≠ 0 || y % 400 = 0)

/-- Days in a month. -/
def daysInMonth (y m : Nat) : Nat :=
  if m = 2 then (if isLeap y then 29 else 28)
  else if m = 4 ∨ m = 6 ∨ m = 9 ∨ m = 11 then 30 else 31

/-- The next calendar day at the same time. -/
def nextDay (t : SDT) : SDT :=
  if t.day < daysInMonth t.year t.month then { t with day := t.day + 1 }
  else if t.month < 12 then { t with month := t.month + 1, day := 1 }
  else { t with year := t.year + 1, month := 1, day := 1 }

/-- Add whole days. -/
def addDays : Nat → SDT → SDT
  | 0, t => t
  | n + 1, t => addDays n (nextDay t)

/-- Add minutes, carrying into following days. -/
def addMinutes (k : Nat) (t : SDT) : SDT :=
  let tot := t.hour * 60 + t.minute + k
  if tot < 1440 then { t with hour := tot / 60, minute := tot % 60 }
  else addDays (tot / 1440) { t with hour := tot % 1440 / 60, minute := tot % 60 }

/-- Length of a year in days. -/
def yearDays (y : Nat) : Nat := if isLeap y then 366 else 365

/-- Days contributed by `n` consecutive years starting at `y0`. -/
def daysBeforeYearGo : Nat → Nat → Nat
  | 0, _ => 0
  | n + 1, y0 => yearDays y0 + daysBeforeYearGo n (y0 + 1)

/-- Days from 2000-01-01 to the start of year `y`. -/
def daysBeforeYear (y : Nat) : Nat := daysBeforeYearGo (y - 2000) 2000

/-- Days contributed by months `1..m` of year `y`. -/
def monthDaysSum (y : Nat) : Nat → Nat
  | 0 => 0
  | m + 1 => monthDaysSum y m + daysInMonth y (m + 1)

/-- Days since 2000-01-01. -/
def dayIndex (t : SDT) : Nat :=
  daysBeforeYear t.year + monthDaysSum t.year (t.month - 1) + (t.day - 1)

/-- Weekday with Monday = 0 (2000-01-01 was a Saturday, code 5). -/
def weekdayOf (t : SDT) : Nat := (5 + dayIndex t) % 7

/-- Modelled from the spec: the reminder-intent trigger phrases. -/
def TRIGGERS : List String := ["remind me", "notify me", "set an alert"]

/-- Modelled from the spec: weekday names with their Monday-based codes. -/
def WEEKDAYS : List (String × Nat) :=
  [("monday", 0), ("tuesday", 1), ("wednesday", 2), ("thursday", 3),
   ("friday", 4), ("saturday", 5), ("sunday", 6)]

/-- Worker for `tokensOf`, accumulating the current word reversed. -/
def wordsGo (acc : List Char) : List Char → List String
  | [] => if acc = [] then [] else [⟨acc.reverse⟩]
  | c :: r =>
    if isPySpace c then
      (if acc = [] then wordsGo [] r else (⟨acc.reverse⟩ : String) :: wordsGo [] r)
    else wordsGo (c :: acc) r

/-- Whitespace-separated tokens of a string. -/
def tokensOf (s : String) : List String := wordsGo [] s.data

/-- Decimal value of a digit list. -/
def digitsVal (l : List Char) : Nat :=
  l.foldl (fun a c => a * 10 + (c.toNat - 48)) 0

/-- A non-empty run of decimal digits. -/
def allDigits (l : List Char) : Bool :=
  decide (l ≠ []) && l.all Char.isDigit

/-- Modelled from the spec: an `HH[:MM]` token, minute 0 when absent. -/
def parseTimeTok (l : List Char) : Option (Nat × Nat) :=
  let pre := l.takeWhile fun c => c ≠ ':'
  match l.dropWhile fun c => c ≠ ':' with
  | [] =>
    if allDigits pre ∧ pre.length ≤ 2 ∧ digitsVal pre < 24 then
      some (digitsVal pre, 0)
    else none
  | _ :: rest =>
    if allDigits pre ∧ pre.length ≤ 2 ∧ digitsVal pre < 24 ∧
        allDigits rest ∧ rest.length = 2 ∧ digitsVal rest < 60 then
      some (digitsVal pre, digitsVal rest)
    else none

/-- Modelled from the spec: the first `HH[:MM]` pattern among the tokens. -/
def findTime (toks : List String) : Option (Nat × Nat) :=
  toks.findSome? fun t => parseTimeTok t.data

/-- Modelled from the spec: day-offset resolution — `day after tomorrow`
is +2, `tomorrow` is +1, a weekday name is its next occurrence strictly in
the future (a week later when it names today). -/
def dayOffset (lnote : String) (nowWd : Nat) : Option Nat :=
  if containsSub "day after tomorrow".data lnote.data then some 2
  else if containsSub "tomorrow".data lnote.data then some 1
  else
    match WEEKDAYS.find? fun p => containsSub p.1.data lnote.data with
    | some pr => some ((pr.2 + 7 - nowWd - 1) % 7 + 1)
    | none => none

/-- Modelled from the spec: tokens stripped from the message — the trigger
phrase words, recognized day and time phrases, and filler connectors. -/
def DROP_TOKENS : List String :=
  ["remind", "notify", "alert", "set", "an", "me", "to", "at",
   "tomorrow", "day", "after", "monday", "tuesday", "wednesday",
   "thursday", "friday", "saturday", "sunday"]

/-- Space-join of tokens. -/
def joinSpace : List String → String
  | [] => ""
  | [x] => x
  | x :: r => x ++ " " ++ joinSpace r

/-- Modelled from the spec: message extraction — drop trigger and day/time
tokens and fillers, collapse whitespace by re-joining. -/
def extractMessage (note : String) : String :=
  joinSpace ((tokensOf note).filter fun t =>
    lowerStr t ∉ DROP_TOKENS ∧ (parseTimeTok t.data).isNone)

/-- The reminder mutation the pre-detector emits. -/
structure ReminderMutation where
  action : String := "remind"
  fire_at : SDT
  idea : String
deriving DecidableEq, Repr

/-- Modelled from the spec: the deterministic reminder pre-detector.  On a
trigger phrase: resolve the day offset and the first time pattern; with no
time at all fire five minutes from now; with a time and no day offset fire
today unless the time is already past, else tomorrow; the message is the
stripped note (falling back to the full note). -/
def detectReminder (note : String) (now : SDT) : Option ReminderMutation :=
  let lnote := lowerStr note
  if TRIGGERS.any fun t => containsSub t.data lnote.data then
    let time? := findTime (tokensOf note)
    let off? := dayOffset lnote (weekdayOf now)
    let fire :=
      match time?, off? with
      | none, _ => addMinutes 5 now
      | some (h, m), some off => { addDays off now with hour := h, minute := m }
      | some (h, m), none =>
        if now.hour * 60 + now.minute ≤ h * 60 + m then
          { now with hour := h, minute := m }
        else { nextDay now with hour := h, minute := m }
    let msg := extractMessage note
    some { fire_at := fire, idea := if msg = "" then note else msg }
  else none

end SpecRemind

namespace AppMain

/-- The `remind` branch of `_process_single_ai` (app/main.py lines 174-189):
`fire_at` is the parsed `remind_at` when present and parseable, otherwise
five minutes from now (`none` models both a missing and an unparseable
timestamp). -/
def remindFireAt (remind_at : Option SpecRemind.SDT) (now : SpecRemind.SDT) :
    SpecRemind.SDT :=
  match remind_at with
  | some t => t
  | none => SpecRemind.addMinutes 5 now

end AppMain

/-- `C8` (spec-modelled pre-detector, backend fallback from app/main.py):
with now = Saturday 2026-02-28 10:00, the note
`"remind me tomorrow at 9 to call the dentist"` yields a remind mutation
firing 2026-03-01 09:00 with idea `"call the dentist"`; any triggered note
in which no time pattern is found fires five minutes from now; and the
backend's remind branch also falls back to five minutes from now when no
timestamp is supplied. -/
theorem C8_theorem :
    (SpecRemind.weekdayOf ⟨2026, 2, 28, 10, 0⟩ = 5 ∧
     SpecRemind.detectReminder "remind me tomorrow at 9 to call the dentist"
        ⟨2026, 2, 28, 10, 0⟩ =
      some { action := "remind", fire_at := ⟨2026, 3, 1, 9, 0⟩,
             idea := "call the dentist" }) ∧
    (∀ (note : String) (now : SpecRemind.SDT),
      (SpecRemind.TRIGGERS.any fun t =>
        containsSub t.data (lowerStr note).data) = true →
      SpecRemind.findTime (SpecRemind.tokensOf note) = none →
      (SpecRemind.detectReminder note now).map
          SpecRemind.ReminderMutation.fire_at =
        some (SpecRemind.addMinutes 5 now)) ∧
    (∀ now : SpecRemind.SDT,
      AppMain.remindFireAt none now = SpecRemind.addMinutes 5 now) := by
  refine ⟨⟨by decide, by decide⟩, ?_, fun now => rfl⟩
  intro note now htrig htime
  unfold SpecRemind.detectReminder
  rw [if_pos htrig, htime]
  rfl

/-- Witness for `C8_theorem`: a triggered note without any time pattern
fires five minutes from 2026-02-28 10:00, namely at 10:05. -/
theorem C8_witness :
    (SpecRemind.detectReminder "remind me buy flowers"
        ⟨2026, 2, 28, 10, 0⟩).map SpecRemind.ReminderMutation.fire_at =
      some (SpecRemind.addMinutes 5 ⟨2026, 2, 28, 10, 0⟩) :=
  C8_theorem.2.1 "remind me buy flowers" ⟨2026, 2, 28, 10, 0⟩ rfl rfl

/-! ## ai-service/llm_client.py — the structured-response decoder

`extract_json` recovers a JSON value from raw model text through an ordered
repair pipeline: direct parse, newline sanitizing inside strings
(`_sanitize_json_string`), delimiter completion (`_close_incomplete_json`),
their combination, a fenced code block, and finally brace- and
bracket-bounded substrings.

The stdlib collaborators are modelled explicitly: `jsonLoads` models
`json.loads` on a value grammar with integer numerals (the repository never
relies on floats), standard escapes and `\uXXXX`, and raw newlines rejected
inside strings; `encodeV` models `json.dumps` with its default separators,
escaping the quote, backslash, newline, carriage return and tab characters
and hex-escaping the remaining control characters (other characters are
kept verbatim, as with `ensure_ascii=False`; round-trip behaviour agrees).
-/

namespace LlmClient

/-- A JSON value (numbers restricted to integers). -/
inductive JVal where
  | jnull
  | jbool (b : Bool)
  | jnum (n : Int)
  | jstr (s : String)
  | jarr (es : List JVal)
  | jobj (ms : List (String × JVal))

/-- Lowercase hex digit. -/
def hexDigit (n : Nat) : Char :=
  if n < 10 then Char.ofNat (48 + n) else Char.ofNat (87 + n)

/-- One character, JSON-escaped (quote, backslash, newline, carriage
return and tab as two-character escapes, other control characters as
`\uXXXX`, everything else verbatim). -/
def escChar (c : Char) : List Char :=
  if c = '"' then ['\\', '"']
  else if c = '\\' then ['\\', '\\']
  else if c = '\n' then ['\\', 'n']
  else if c = '\r' then ['\\', 'r']
  else if c = '\t' then ['\\', 't']
  else if c.toNat < 32 then
    ['\\', 'u', hexDigit (c.toNat / 4096 % 16), hexDigit (c.toNat / 256 % 16),
     hexDigit (c.toNat / 16 % 16), hexDigit (c.toNat % 16)]
  else [c]

/-- JSON-escape a character list. -/
def escList : List Char → List Char
  | [] => []
  | c :: r => escChar c ++ escList r

/-- A rendered JSON string: quote, escaped body, quote. -/
def encodeStrL (s : String) : List Char := '"' :: (escList s.data ++ ['"'])

/-- Decimal digits of `n`, most significant first (`fuel ≥ n` suffices). -/
def natDigitsGo : Nat → Nat → List Char
  | 0, _ => []
  | fuel + 1, n =>
    if n = 0 then [] else natDigitsGo fuel (n / 10) ++ [Char.ofNat (48 + n % 10)]

/-- Decimal representation of a natural number. -/
def natChars (n : Nat) : List Char :=
  if n = 0 then ['0'] else natDigitsGo (n + 1) n

/-- Decimal representation of an integer. -/
def intChars (i : Int) : List Char :=
  if i < 0 then '-' :: natChars i.natAbs else natChars i.natAbs

mutual
/-- Render a value with the `json.dumps` default separators. -/
def encodeV : JVal → List Char
  | .jnull => ['n', 'u', 'l', 'l']
  | .jbool true => ['t', 'r', 'u', 'e']
  | .jbool false => ['f', 'a', 'l', 's', 'e']
  | .jnum i => intChars i
  | .jstr s => encodeStrL s
  | .jarr es => '[' :: (encodeElems es ++ [']'])
  | .jobj ms => '\x7b' :: (encodeMembers ms ++ ['\x7d'])
/-- Array elements, `", "`-separated. -/
def encodeElems : List JVal → List Char
  | [] => []
  | e :: es => encodeV e ++ encodeElemsTail es
/-- The tail of an element list, each preceded by `", "`. -/
def encodeElemsTail : List JVal → List Char
  | [] => []
  | e :: es => ',' :: ' ' :: (encodeV e ++ encodeElemsTail es)
/-- Object members `"key": value`, `", "`-separated. -/
def encodeMembers : List (String × JVal) → List Char
  | [] => []
  | (k, v) :: ms => encodeStrL k ++ ':' :: ' ' :: (encodeV v ++ encodeMembersTail ms)
/-- The tail of a member list, each preceded by `", "`. -/
def encodeMembersTail : List (String × JVal) → List Char
  | [] => []
  | (k, v) :: ms =>
    ',' :: ' ' :: (encodeStrL k ++ ':' :: ' ' :: (encodeV v ++ encodeMembersTail ms))
end

/-- JSON whitespace. -/
def isJsonWs (c : Char) : Bool := c = ' ' || c = '\t' || c = '\n' || c = '\r'

/-- Skip JSON whitespace. -/
def skipJWs : List Char → List Char
  | [] => []
  | c :: r => if isJsonWs c then skipJWs r else c :: r

/-- Hex digit value. -/
def hexVal (c : Char) : Option Nat :=
  if 48 ≤ c.toNat ∧ c.toNat ≤ 57 then some (c.toNat - 48)
  else if 97 ≤ c.toNat ∧ c.toNat ≤ 102 then some (c.toNat - 87)
  else if 65 ≤ c.toNat ∧ c.toNat ≤ 70 then some (c.toNat - 55)
  else none

/-- Two-character escapes accepted after a backslash. -/
def unescChar : Char → Option Char
  | 'n' => some '\n'
  | 't' => some '\t'
  | 'r' => some '\r'
  | 'b' => some '\x08'
  | 'f' => some '\x0c'
  | '"' => some '"'
  | '/' => some '/'
  | '\\' => some '\\'
  | _ => none

/-- Parse a string body after the opening quote: content and the remainder
after the closing quote.  Raw newlines are rejected (as `json.loads`
does); `\uXXXX` escapes are decoded. -/
def parseStrBody : List Char → Option (List Char × List Char)
  | [] => none
  | c :: r =>
    if c = '"' then some ([], r)
    else if c = '\\' then
      match r with
      | [] => none
      | e :: r2 =>
        if e = 'u' then
          match r2 with
          | a :: b :: cc :: d :: r3 =>
            (match hexVal a, hexVal b, hexVal cc, hexVal d with
             | some va, some vb, some vc, some vd =>
               (parseStrBody r3).map fun p =>
                 (Char.ofNat (((va * 16 + vb) * 16 + vc) * 16 + vd) :: p.1, p.2)
             | _, _, _, _ => none)
          | _ => none
        else
          (match unescChar e with
           | some u => (parseStrBody r2).map fun p => (u :: p.1, p.2)
           | none => none)
    else if c = '\n' ∨ c = '\r' then none
    else (parseStrBody r).map fun p => (c :: p.1, p.2)

/-- Value of a digit run. -/
def digitsValN (l : List Char) : Nat :=
  l.foldl (fun a c => a * 10 + (c.toNat - 48)) 0

/-- Parse an unsigned decimal numeral. -/
def parseNatNum (s : List Char) : Option (Nat × List Char) :=
  match s.takeWhile Char.isDigit with
  | [] => none
  | ds => some (digitsValN ds, s.dropWhile Char.isDigit)

/-- Parse an integer numeral with optional minus sign. -/
def parseNum : List Char → Option (Int × List Char)
  | [] => none
  | c :: r =>
    if c = '-' then (parseNatNum r).map fun p => (-(p.1 : Int), p.2)
    else (parseNatNum (c :: r)).map fun p => ((p.1 : Int), p.2)

mutual
/-- Parse one JSON value (fuel-indexed; `input length + 1` suffices). -/
def parseV : Nat → List Char → Option (JVal × List Char)
  | 0, _ => none
  | _ + 1, [] => none
  | fuel + 1, c :: r =>
    if c = 'n' then
      (match r with
       | 'u' :: 'l' :: 'l' :: rr => some (.jnull, rr)
       | _ => none)
    else if c = 't' then
      (match r with
       | 'r' :: 'u' :: 'e' :: rr => some (.jbool true, rr)
       | _ => none)
    else if c = 'f' then
      (match r with
       | 'a' :: 'l' :: 's' :: 'e' :: rr => some (.jbool false, rr)
       | _ => none)
    else if c = '"' then (parseStrBody r).map fun p => (.jstr ⟨p.1⟩, p.2)
    else if c = '[' then
      (match skipJWs r with
       | [] => none
       | c2 :: r2 =>
         if c2 = ']' then some (.jarr [], r2)
         else (parseElems fuel (c2 :: r2)).map fun p => (.jarr p.1, p.2))
    else if c = '\x7b' then
      (match skipJWs r with
       | [] => none
       | c2 :: r2 =>
         if c2 = '\x7d' then some (.jobj [], r2)
         else (parseMembers fuel (c2 :: r2)).map fun p => (.jobj p.1, p.2))
    else if c = '-' ∨ c.isDigit then
      (parseNum (c :: r)).map fun p => (.jnum p.1, p.2)
    else none
/-- Parse one or more comma-separated array elements up to `]`. -/
def parseElems : Nat → List Char → Option (List JVal × List Char)
  | 0, _ => none
  | fuel + 1, s =>
    match parseV fuel s with
    | none => none
    | some (v, r) =>
      match skipJWs r with
      | [] => none
      | c :: r2 =>
        if c = ',' then (parseElems fuel (skipJWs r2)).map fun p => (v :: p.1, p.2)
        else if c = ']' then some ([v], r2)
        else none
/-- Parse one or more comma-separated object members up to the closing
brace. -/
def parseMembers : Nat → List Char → Option (List (String × JVal) × List Char)
  | 0, _ => none
  | _ + 1, [] => none
  | fuel + 1, c :: r =>
    if c = '"' then
      (match parseStrBody r with
       | none => none
       | some (k, r1) =>
         match skipJWs r1 with
         | [] => none
         | c2 :: r2 =>
           if c2 = ':' then
             (match parseV fuel (skipJWs r2) with
              | none => none
              | some (v, r3) =>
                match skipJWs r3 with
                | [] => none
                | c3 :: r4 =>
                  if c3 = ',' then
                    (parseMembers fuel (skipJWs r4)).map fun p =>
                      ((⟨k⟩, v) :: p.1, p.2)
                  else if c3 = '\x7d' then some ([(⟨k⟩, v)], r4)
                  else none)
           else none)
    else none
end

/-- `json.loads`: parse a complete document, leading and trailing
whitespace allowed, nothing else may remain. -/
def jsonLoads (l : List Char) : Option JVal :=
  match parseV (l.length + 1) (skipJWs l) with
  | some (v, rest) => if skipJWs rest = [] then some v else none
  | none => none

/-- Worker for `_sanitize_json_string`: character scan with an
inside-string flag and a backslash-escape flag. -/
def sanitizeGo : Bool → Bool → List Char → List Char
  | _, _, [] => []
  | inStr, true, c :: r => c :: sanitizeGo inStr false r
  | inStr, false, c :: r =>
    if c = '\\' then c :: sanitizeGo inStr true r
    else if c = '"' then c :: sanitizeGo (!inStr) false r
    else if (c = '\n' ∨ c = '\r') ∧ inStr = true then ' ' :: sanitizeGo inStr false r
    else c :: sanitizeGo inStr false r

/-- `_sanitize_json_string`: replace literal newlines inside quoted strings
with spaces. -/
def sanitizeJsonString (l : List Char) : List Char := sanitizeGo false false l

/-- Quotes not immediately preceded by a backslash (the regex
`(?<!\\)"`), tracking the previous character. -/
def countUnescQ : Option Char → List Char → Nat
  | _, [] => 0
  | prev, c :: r =>
    (if c = '"' ∧ prev ≠ some '\\' then 1 else 0) + countUnescQ (some c) r

/-- Number of unescaped double quotes in the text. -/
def countUnescapedQuotes (l : List Char) : Nat := countUnescQ none l

/-- `_close_incomplete_json`: close an odd unescaped quote, then append the
missing brackets and braces (raw character counts; `Nat` subtraction is
the `max(0, ...)` of the source). -/
def closeIncompleteJson (l : List Char) : List Char :=
  let openBraces := l.count '\x7b' - l.count '\x7d'
  let openBrackets := l.count '[' - l.count ']'
  let l2 := if countUnescapedQuotes l % 2 ≠ 0 then l ++ ['"'] else l
  (l2 ++ List.replicate openBrackets ']') ++ List.replicate openBraces '\x7d'

/-- `try_parse`: as-is, sanitized, completed, sanitized-and-completed;
first success wins. -/
def tryParse (l : List Char) : Option JVal :=
  match jsonLoads l with
  | some v => some v
  | none =>
    match jsonLoads (sanitizeJsonString l) with
    | some v => some v
    | none =>
      match jsonLoads (closeIncompleteJson l) with
      | some v => some v
      | none => jsonLoads (closeIncompleteJson (sanitizeJsonString l))

/-- Regex whitespace run (`\s*`). -/
def dropRS (l : List Char) : List Char := l.dropWhile isPySpace

/-- After a candidate closing delimiter: `\s*` then three backticks must
follow for the fenced-block pattern to match. -/
def fencedTailOk (l : List Char) : Bool :=
  match dropRS l with
  | '`' :: '`' :: '`' :: _ => true
  | _ => false

/-- Non-greedy scan for the first closing delimiter whose suffix completes
the fenced-block pattern; returns the delimited chunk. -/
def fencedScan (close : Char) (acc : List Char) : List Char → Option (List Char)
  | [] => none
  | c :: r =>
    if c = close ∧ fencedTailOk r = true then some ((c :: acc).reverse)
    else fencedScan close (c :: acc) r

/-- Match the fenced-block pattern at this position: three backticks, an
optional `json` tag, whitespace, then a brace- or bracket-delimited chunk
(shortest), then whitespace and three closing backticks. -/
def fencedHere (l : List Char) : Option (List Char) :=
  match l with
  | '`' :: '`' :: '`' :: rest =>
    let rest2 := match rest with
      | 'j' :: 's' :: 'o' :: 'n' :: rr => rr
      | _ => rest
    (match dropRS rest2 with
     | '\x7b' :: body => fencedScan '\x7d' ['\x7b'] body
     | '[' :: body => fencedScan ']' ['['] body
     | _ => none)
  | _ => none

/-- `re.search` of the fenced-block pattern: leftmost match. -/
def fencedSearch : List Char → Option (List Char)
  | [] => none
  | c :: r =>
    match fencedHere (c :: r) with
    | some content => some content
    | none => fencedSearch r

/-- Index of the first occurrence of a character. -/
def firstIdxOf (c : Char) : List Char → Option Nat
  | [] => none
  | x :: r => if x = c then some 0 else (firstIdxOf c r).map (· + 1)

/-- Index of the last occurrence of a character (`str.rfind`). -/
def lastIdxOf (c : Char) (l : List Char) : Option Nat :=
  (firstIdxOf c l.reverse).map fun i => l.length - 1 - i

/-- `text[start:end+1] if end > start else text[start:]` with `start` the
first opener and `end` the last closer. -/
def braceChunk (l : List Char) (op cl : Char) : Option (List Char) :=
  match firstIdxOf op l with
  | none => none
  | some st =>
    match lastIdxOf cl l with
    | some en => if st < en then some ((l.drop st).take (en + 1 - st)) else some (l.drop st)
    | none => some (l.drop st)

/-- Steps 3 and 4 of `extract_json`: the brace-bounded substring, then the
bracket-bounded substring, else the decode error carrying the text. -/
def extractSub (t : List Char) : Except (List Char) JVal :=
  match braceChunk t '\x7b' '\x7d' with
  | some chunk =>
    (match tryParse chunk with
     | some v => .ok v
     | none => extractSubArr t)
  | none => extractSubArr t
where
  extractSubArr (t : List Char) : Except (List Char) JVal :=
    match braceChunk t '[' ']' with
    | some chunk =>
      (match tryParse chunk with
       | some v => .ok v
       | none => .error t)
    | none => .error t

/-- `extract_json`: strip, try the four-way repair parse, then a fenced
code block, then the bounded substrings; on total failure, a decode error
carrying the (stripped) text. -/
def extractJson (text : List Char) : Except (List Char) JVal :=
  let t := pyStrip text
  match tryParse t with
  | some v => .ok v
  | none =>
    match fencedSearch t with
    | some content =>
      (match tryParse content with
       | some v => .ok v
       | none => extractSub t)
    | none => extractSub t

end LlmClient

namespace LlmClient

/-- C2: counterexample.  The claim asserts that for ANY encoded value with the
trailing unmatched brace removed, the decoder recovers the original value via
its close-incomplete repair.  Take `v = {"a": "}"}`, whose encoding
ends in the closing brace `'}'`.  After dropping that final brace,
`_close_incomplete_json` counts raw occurrences of braces — including the
`'}'` INSIDE the string literal — finds them balanced, appends nothing, and
every repair stage fails: `extract_json` raises `ValueError` carrying the
stripped text instead of recovering `v`. -/
theorem C2_counterexample :
    (encodeV (.jobj [("a", .jstr "\x7d")])).getLast? = some '\x7d' ∧
    extractJson ((encodeV (.jobj [("a", .jstr "\x7d")])).dropLast)
      = .error ("\x7b\"a\": \"\x7d\"".data) ∧
    extractJson ((encodeV (.jobj [("a", .jstr "\x7d")])).dropLast)
      ≠ .ok (.jobj [("a", .jstr "\x7d")]) := by
  refine ⟨rfl, rfl, fun h => ?_⟩
  exact Except.noConfusion
    ((rfl : (Except.error ("\x7b\"a\": \"\x7d\"".data) : Except (List Char) JVal)
        = extractJson ((encodeV (.jobj [("a", .jstr "\x7d")])).dropLast)).trans h)

end LlmClient

namespace LlmClient

/-! ### Round-trip lemmas: digits and string escapes -/

/-- A decimal digit character built from a value below ten has that value. -/
theorem charOfNat_digit_toNat (k : Nat) (h : k < 10) :
    (Char.ofNat (48 + k)).toNat = 48 + k := by
  interval_cases k <;> decide

/-- A decimal digit character built from a value below ten is a digit. -/
theorem charOfNat_digit_isDigit (k : Nat) (h : k < 10) :
    (Char.ofNat (48 + k)).isDigit = true := by
  interval_cases k <;> decide

/-- A digit character differs from any non-digit character. -/
theorem digit_ne_of (c : Char) (h : c.isDigit = true) (x : Char)
    (hx : x.isDigit = false) : c ≠ x :=
  fun hEq => by subst hEq; rw [h] at hx; cases hx

/-- A digit character is not JSON whitespace. -/
theorem digit_not_jws (c : Char) (h : c.isDigit = true) : isJsonWs c = false := by
  simp only [isJsonWs, Bool.or_eq_false_iff, decide_eq_false_iff_not]
  and_intros <;> (intro hEq; subst hEq; exact absurd h (by decide))

/-- A digit character is not Python whitespace. -/
theorem digit_not_pws (c : Char) (h : c.isDigit = true) : isPySpace c = false := by
  simp only [isPySpace, Bool.or_eq_false_iff, decide_eq_false_iff_not]
  and_intros <;> (intro hEq; subst hEq; exact absurd h (by decide))

/-- Every character produced by `natDigitsGo` is a digit. -/
theorem natDigitsGo_digits :
    ∀ (fuel n : Nat), ∀ c ∈ natDigitsGo fuel n, c.isDigit = true := by
  intro fuel
  induction fuel with
  | zero => intro n c hc; simp [natDigitsGo] at hc
  | succ f ih =>
    intro n c hc
    by_cases hn : n = 0
    · simp [natDigitsGo, hn] at hc
    · rw [natDigitsGo, if_neg hn] at hc
      rcases List.mem_append.mp hc with hrec | hdig
      · exact ih _ c hrec
      · rcases List.mem_singleton.mp hdig with rfl
        exact charOfNat_digit_isDigit _ (Nat.mod_lt _ (by norm_num))

/-- Folding the digit-accumulation step over `natDigitsGo` recovers the
number. -/
theorem natDigitsGo_foldl :
    ∀ (fuel n : Nat), n ≤ fuel → ∀ acc,
      (natDigitsGo fuel n).foldl (fun a c => a * 10 + (c.toNat - 48)) acc
        = acc * 10 ^ (natDigitsGo fuel n).length + n := by
  intro fuel
  induction fuel with
  | zero => intro n hn acc; interval_cases n; simp [natDigitsGo]
  | succ f ih =>
    intro n hn acc
    by_cases h0 : n = 0
    · subst h0; simp [natDigitsGo]
    · rw [natDigitsGo, if_neg h0, List.foldl_append, List.length_append]
      have hdiv : n / 10 ≤ f := by
        have := Nat.div_lt_self (Nat.pos_of_ne_zero h0) (by norm_num : 1 < 10)
        omega
      rw [ih (n / 10) hdiv acc]
      simp only [List.foldl_cons, List.foldl_nil, List.length_cons,
        List.length_nil]
      rw [charOfNat_digit_toNat _ (Nat.mod_lt _ (by norm_num))]
      have harith :
          (acc * 10 ^ (natDigitsGo f (n / 10)).length + n / 10) * 10
              + (48 + n % 10 - 48)
            = acc * (10 ^ (natDigitsGo f (n / 10)).length * 10)
              + (10 * (n / 10) + n % 10) := by ring_nf; omega
      rw [harith, Nat.div_add_mod, pow_succ]

/-- `natChars` is never empty. -/
theorem natChars_ne_nil (n : Nat) : natChars n ≠ [] := by
  unfold natChars
  by_cases h0 : n = 0
  · simp [h0]
  · rw [if_neg h0, natDigitsGo, if_neg h0]
    simp

/-- Every character of `natChars` is a digit. -/
theorem natChars_digits (n : Nat) : ∀ c ∈ natChars n, c.isDigit = true := by
  intro c hc
  unfold natChars at hc
  by_cases h0 : n = 0
  · rw [if_pos h0] at hc; rcases List.mem_singleton.mp hc with rfl; decide
  · rw [if_neg h0] at hc; exact natDigitsGo_digits _ _ c hc

/-- Evaluating the digit run of `natChars n` gives back `n`. -/
theorem digitsValN_natChars (n : Nat) : digitsValN (natChars n) = n := by
  unfold natChars digitsValN
  by_cases h0 : n = 0
  · subst h0; decide
  · rw [if_neg h0, natDigitsGo_foldl (n + 1) n (by omega) 0]
    simp

/-- May a numeral stop before this remainder?  True when the remainder is
empty or starts with a non-digit. -/
def numStop (rest : List Char) : Bool :=
  match rest with
  | [] => true
  | c :: _ => !c.isDigit

/-- A digit run followed by a numeral stop splits cleanly under
`takeWhile`/`dropWhile`. -/
theorem digit_run_split (ds rest : List Char) (hd : ∀ c ∈ ds, c.isDigit = true)
    (hr : numStop rest = true) :
    (ds ++ rest).takeWhile Char.isDigit = ds ∧
      (ds ++ rest).dropWhile Char.isDigit = rest := by
  induction ds with
  | nil =>
    cases rest with
    | nil => simp
    | cons c r =>
      simp only [numStop, Bool.not_eq_true'] at hr
      simp [List.takeWhile_cons, List.dropWhile_cons, hr]
  | cons c t ih =>
    have hc : c.isDigit = true := hd c (by simp)
    have iht := ih (fun x hx => hd x (by simp [hx]))
    simp [List.takeWhile_cons, List.dropWhile_cons, hc, iht.1, iht.2]

/-- `parseNatNum` recovers a natural number from its rendering. -/
theorem parseNatNum_natChars (n : Nat) (rest : List Char)
    (hr : numStop rest = true) :
    parseNatNum (natChars n ++ rest) = some (n, rest) := by
  obtain ⟨htake, hdrop⟩ := digit_run_split (natChars n) rest (natChars_digits n) hr
  unfold parseNatNum
  rw [htake, hdrop]
  rcases hnc : natChars n with _ | ⟨c, t⟩
  · exact absurd hnc (natChars_ne_nil n)
  · show some (digitsValN (c :: t), rest) = some (n, rest)
    rw [← hnc, digitsValN_natChars]

/-- `parseNum` recovers an integer from its rendering, for any remainder at
which a numeral may stop. -/
theorem parseNum_intChars (i : Int) (rest : List Char) (hr : numStop rest = true) :
    parseNum (intChars i ++ rest) = some (i, rest) := by
  unfold intChars
  by_cases hi : i < 0
  · rw [if_pos hi]
    show parseNum ('-' :: (natChars i.natAbs ++ rest)) = _
    unfold parseNum
    dsimp only
    rw [if_pos rfl, parseNatNum_natChars _ _ hr]
    simp only [Option.map_some']
    have hia : -(i.natAbs : Int) = i := by omega
    rw [hia]
  · rw [if_neg hi]
    rcases hnc : natChars i.natAbs with _ | ⟨c, t⟩
    · exact absurd hnc (natChars_ne_nil _)
    · have hc : c.isDigit = true := natChars_digits _ c (by rw [hnc]; simp)
      unfold parseNum
      show (if c = '-' then Option.map (fun p => (-(p.1 : Int), p.2)) (parseNatNum (t ++ rest))
        else Option.map (fun p => ((p.1 : Int), p.2)) (parseNatNum (c :: (t ++ rest))))
          = some (i, rest)
      rw [if_neg (digit_ne_of c hc '-' (by decide)), ← List.cons_append, ← hnc,
        parseNatNum_natChars _ _ hr]
      simp only [Option.map_some']
      have hia : (i.natAbs : Int) = i := by omega
      rw [hia]

/-- A hex digit character decodes to its value. -/
theorem hexVal_hexDigit (k : Nat) (h : k < 16) : hexVal (hexDigit k) = some k := by
  interval_cases k <;> decide

/-- Parsing after one escaped character peels it off the content. -/
theorem parseStrBody_escChar (c : Char) (x : List Char) :
    parseStrBody (escChar c ++ x)
      = (parseStrBody x).map fun p => (c :: p.1, p.2) := by
  unfold escChar
  by_cases h1 : c = '"'
  · subst h1; rw [if_pos rfl]
    show parseStrBody ('\\' :: '"' :: x) = _
    conv_lhs => rw [parseStrBody.eq_def]
    dsimp only
    rw [if_neg (by decide), if_pos rfl, if_neg (by decide)]
    rfl
  by_cases h2 : c = '\\'
  · subst h2; rw [if_neg h1, if_pos rfl]
    show parseStrBody ('\\' :: '\\' :: x) = _
    conv_lhs => rw [parseStrBody.eq_def]
    dsimp only
    rw [if_neg (by decide), if_pos rfl, if_neg (by decide)]
    rfl
  by_cases h3 : c = '\n'
  · subst h3; rw [if_neg h1, if_neg h2, if_pos rfl]
    show parseStrBody ('\\' :: 'n' :: x) = _
    conv_lhs => rw [parseStrBody.eq_def]
    dsimp only
    rw [if_neg (by decide), if_pos rfl, if_neg (by decide)]
    rfl
  by_cases h4 : c = '\r'
  · subst h4; rw [if_neg h1, if_neg h2, if_neg h3, if_pos rfl]
    show parseStrBody ('\\' :: 'r' :: x) = _
    conv_lhs => rw [parseStrBody.eq_def]
    dsimp only
    rw [if_neg (by decide), if_pos rfl, if_neg (by decide)]
    rfl
  by_cases h5 : c = '\t'
  · subst h5; rw [if_neg h1, if_neg h2, if_neg h3, if_neg h4, if_pos rfl]
    show parseStrBody ('\\' :: 't' :: x) = _
    conv_lhs => rw [parseStrBody.eq_def]
    dsimp only
    rw [if_neg (by decide), if_pos rfl, if_neg (by decide)]
    rfl
  rw [if_neg h1, if_neg h2, if_neg h3, if_neg h4, if_neg h5]
  by_cases h6 : c.toNat < 32
  · rw [if_pos h6]
    show parseStrBody ('\\' :: 'u' :: hexDigit (c.toNat / 4096 % 16)
      :: hexDigit (c.toNat / 256 % 16) :: hexDigit (c.toNat / 16 % 16)
      :: hexDigit (c.toNat % 16) :: x) = _
    conv_lhs => rw [parseStrBody.eq_def]
    dsimp only
    rw [if_neg (by decide), if_pos rfl, if_pos rfl]
    rw [hexVal_hexDigit _ (Nat.mod_lt _ (by norm_num)),
      hexVal_hexDigit _ (Nat.mod_lt _ (by norm_num)),
      hexVal_hexDigit _ (Nat.mod_lt _ (by norm_num)),
      hexVal_hexDigit _ (Nat.mod_lt _ (by norm_num))]
    have harith :
        ((c.toNat / 4096 % 16 * 16 + c.toNat / 256 % 16) * 16
            + c.toNat / 16 % 16) * 16 + c.toNat % 16 = c.toNat := by
      omega
    simp only [harith, Char.ofNat_toNat]
  · rw [if_neg h6]
    show parseStrBody (c :: x) = _
    conv_lhs => rw [parseStrBody.eq_def]
    dsimp only
    rw [if_neg h1, if_neg h2, if_neg (by exact fun hor => hor.elim h3 h4)]

/-- Parsing an escaped body followed by a closing quote yields the body. -/
theorem parseStrBody_escList (l x : List Char) :
    parseStrBody (escList l ++ '"' :: x) = some (l, x) := by
  induction l with
  | nil =>
    show parseStrBody ('"' :: x) = _
    conv_lhs => rw [parseStrBody.eq_def]
    dsimp only
    rw [if_pos rfl]
  | cons c t ih =>
    show parseStrBody (escChar c ++ escList t ++ '"' :: x) = _
    rw [List.append_assoc, parseStrBody_escChar, ih]
    rfl

/-- Skipping whitespace stops at a non-whitespace head. -/
theorem skipJWs_cons (c : Char) (r : List Char) (h : isJsonWs c = false) :
    skipJWs (c :: r) = c :: r := by
  simp [skipJWs, h]

/-- Stripping is the identity for a text whose two ends are not Python
whitespace. -/
theorem pyStrip_id (l : List Char) (c : Char) (t init : List Char) (d : Char)
    (h1 : l = c :: t) (h2 : isPySpace c = false)
    (h3 : l = init ++ [d]) (h4 : isPySpace d = false) :
    pyStrip l = l := by
  unfold pyStrip
  rw [h1, List.dropWhile_cons, h2, if_neg (by simp), ← h1, h3,
    List.reverse_append, List.reverse_singleton, List.singleton_append,
    List.dropWhile_cons, h4, if_neg (by simp), ← List.singleton_append,
    ← List.reverse_singleton, ← List.reverse_append]
  simp

end LlmClient

namespace LlmClient

/-! ### Shape of encoded values -/

/-- An encoded value starts with a non-whitespace character that is not a
closing bracket or brace. -/
theorem encodeV_head (v : JVal) :
    ∃ c t, encodeV v = c :: t ∧ isJsonWs c = false ∧ isPySpace c = false ∧
      c ≠ ']' ∧ c ≠ '\x7d' := by
  cases v with
  | jnull => exact ⟨'n', _, rfl, by decide, by decide, by decide, by decide⟩
  | jbool b =>
    cases b with
    | true => exact ⟨'t', _, rfl, by decide, by decide, by decide, by decide⟩
    | false => exact ⟨'f', _, rfl, by decide, by decide, by decide, by decide⟩
  | jnum i =>
    show ∃ c t, intChars i = c :: t ∧ _
    unfold intChars
    by_cases hi : i < 0
    · rw [if_pos hi]
      exact ⟨'-', _, rfl, by decide, by decide, by decide, by decide⟩
    · rw [if_neg hi]
      rcases hnc : natChars i.natAbs with _ | ⟨c, t⟩
      · exact absurd hnc (natChars_ne_nil _)
      · have hc : c.isDigit = true := natChars_digits _ c (by rw [hnc]; simp)
        exact ⟨c, t, rfl, digit_not_jws c hc, digit_not_pws c hc,
          digit_ne_of c hc ']' (by decide), digit_ne_of c hc '\x7d' (by decide)⟩
  | jstr s => exact ⟨'"', _, rfl, by decide, by decide, by decide, by decide⟩
  | jarr es => exact ⟨'[', _, rfl, by decide, by decide, by decide, by decide⟩
  | jobj ms => exact ⟨'\x7b', _, rfl, by decide, by decide, by decide, by decide⟩

/-- The rendering of a natural number ends in a digit. -/
theorem natChars_last (n : Nat) :
    ∃ init d, natChars n = init ++ [d] ∧ d.isDigit = true := by
  unfold natChars
  by_cases h0 : n = 0
  · rw [if_pos h0]; exact ⟨[], '0', rfl, by decide⟩
  · rw [if_neg h0, natDigitsGo, if_neg h0]
    exact ⟨_, _, rfl, charOfNat_digit_isDigit _ (Nat.mod_lt _ (by norm_num))⟩

/-- An encoded value ends with a character that is neither whitespace nor a
backslash. -/
theorem encodeV_last (v : JVal) :
    ∃ init d, encodeV v = init ++ [d] ∧ isPySpace d = false ∧ d ≠ '\\' := by
  cases v with
  | jnull => exact ⟨['n', 'u', 'l'], 'l', rfl, by decide, by decide⟩
  | jbool b =>
    cases b with
    | true => exact ⟨['t', 'r', 'u'], 'e', rfl, by decide, by decide⟩
    | false => exact ⟨['f', 'a', 'l', 's'], 'e', rfl, by decide, by decide⟩
  | jnum i =>
    show ∃ init d, intChars i = init ++ [d] ∧ _
    obtain ⟨init, d, hid, hd⟩ := natChars_last i.natAbs
    unfold intChars
    by_cases hi : i < 0
    · rw [if_pos hi, hid]
      exact ⟨'-' :: init, d, rfl, digit_not_pws d hd, digit_ne_of d hd '\\' (by decide)⟩
    · rw [if_neg hi, hid]
      exact ⟨init, d, rfl, digit_not_pws d hd, digit_ne_of d hd '\\' (by decide)⟩
  | jstr s =>
    exact ⟨'"' :: escList s.data, '"',
      by show '"' :: (escList s.data ++ ['"']) = _; simp, by decide, by decide⟩
  | jarr es =>
    exact ⟨'[' :: encodeElems es, ']',
      by show '[' :: (encodeElems es ++ [']']) = _; simp, by decide, by decide⟩
  | jobj ms =>
    exact ⟨'\x7b' :: encodeMembers ms, '\x7d',
      by show '\x7b' :: (encodeMembers ms ++ ['\x7d']) = _; simp, by decide, by decide⟩

end LlmClient

namespace LlmClient

/-! ### Round-trip of the fuel-indexed parser -/

/-- Head shape of a rendered integer: a minus sign or a digit, in
particular none of the characters the value parser dispatches on first. -/
theorem intChars_head (i : Int) :
    ∃ c t, intChars i = c :: t ∧ (c = '-' ∨ c.isDigit = true) ∧
      c ≠ 'n' ∧ c ≠ 't' ∧ c ≠ 'f' ∧ c ≠ '"' ∧ c ≠ '[' ∧ c ≠ '\x7b' := by
  unfold intChars
  by_cases hi : i < 0
  · rw [if_pos hi]
    exact ⟨'-', _, rfl, Or.inl rfl, by decide, by decide, by decide, by decide,
      by decide, by decide⟩
  · rw [if_neg hi]
    rcases hnc : natChars i.natAbs with _ | ⟨c, t⟩
    · exact absurd hnc (natChars_ne_nil _)
    · have hc : c.isDigit = true := natChars_digits _ c (by rw [hnc]; simp)
      exact ⟨c, t, rfl, Or.inr hc, digit_ne_of c hc 'n' (by decide),
        digit_ne_of c hc 't' (by decide), digit_ne_of c hc 'f' (by decide),
        digit_ne_of c hc '"' (by decide), digit_ne_of c hc '[' (by decide),
        digit_ne_of c hc '\x7b' (by decide)⟩

/-- One unfolding of `parseV` at positive fuel. -/
theorem parseV_succ (f : Nat) (c : Char) (r : List Char) :
    parseV (f + 1) (c :: r) =
      (if c = 'n' then
        (match r with
         | 'u' :: 'l' :: 'l' :: rr => some (.jnull, rr)
         | _ => none)
      else if c = 't' then
        (match r with
         | 'r' :: 'u' :: 'e' :: rr => some (.jbool true, rr)
         | _ => none)
      else if c = 'f' then
        (match r with
         | 'a' :: 'l' :: 's' :: 'e' :: rr => some (.jbool false, rr)
         | _ => none)
      else if c = '"' then (parseStrBody r).map fun p => (.jstr ⟨p.1⟩, p.2)
      else if c = '[' then
        (match skipJWs r with
         | [] => none
         | c2 :: r2 =>
           if c2 = ']' then some (.jarr [], r2)
           else (parseElems f (c2 :: r2)).map fun p => (.jarr p.1, p.2))
      else if c = '\x7b' then
        (match skipJWs r with
         | [] => none
         | c2 :: r2 =>
           if c2 = '\x7d' then some (.jobj [], r2)
           else (parseMembers f (c2 :: r2)).map fun p => (.jobj p.1, p.2))
      else if c = '-' ∨ c.isDigit then
        (parseNum (c :: r)).map fun p => (.jnum p.1, p.2)
      else none) := rfl

/-- One unfolding of `parseElems` at positive fuel. -/
theorem parseElems_succ (f : Nat) (s : List Char) :
    parseElems (f + 1) s =
      (match parseV f s with
       | none => none
       | some (v, r) =>
         match skipJWs r with
         | [] => none
         | c :: r2 =>
           if c = ',' then (parseElems f (skipJWs r2)).map fun p => (v :: p.1, p.2)
           else if c = ']' then some ([v], r2)
           else none) := rfl

/-- One unfolding of `parseMembers` at positive fuel. -/
theorem parseMembers_succ (f : Nat) (c : Char) (r : List Char) :
    parseMembers (f + 1) (c :: r) =
      (if c = '"' then
        (match parseStrBody r with
         | none => none
         | some (k, r1) =>
           match skipJWs r1 with
           | [] => none
           | c2 :: r2 =>
             if c2 = ':' then
               (match parseV f (skipJWs r2) with
                | none => none
                | some (v, r3) =>
                  match skipJWs r3 with
                  | [] => none
                  | c3 :: r4 =>
                    if c3 = ',' then
                      (parseMembers f (skipJWs r4)).map fun p =>
                        ((⟨k⟩, v) :: p.1, p.2)
                    else if c3 = '\x7d' then some ([(⟨k⟩, v)], r4)
                    else none)
             else none)
      else none) := rfl

/-- The parser is a left inverse of the renderer: with enough fuel, parsing
a rendered value (element list, member list) consumes exactly the rendering
and returns the value. -/
theorem rt_parse : ∀ fuel : Nat,
    (∀ (v : JVal) (rest : List Char), (encodeV v).length < fuel →
       numStop rest = true →
       parseV fuel (encodeV v ++ rest) = some (v, rest)) ∧
    (∀ (e : JVal) (es : List JVal) (rest : List Char),
       (encodeElems (e :: es)).length + 1 < fuel →
       parseElems fuel (encodeElems (e :: es) ++ ']' :: rest)
         = some (e :: es, rest)) ∧
    (∀ (k : String) (w : JVal) (ms : List (String × JVal)) (rest : List Char),
       (encodeMembers ((k, w) :: ms)).length + 1 < fuel →
       parseMembers fuel (encodeMembers ((k, w) :: ms) ++ '\x7d' :: rest)
         = some ((k, w) :: ms, rest)) := by
  intro fuel
  induction fuel with
  | zero =>
    exact ⟨fun v rest h _ => absurd h (by omega),
      fun e es rest h => absurd h (by omega),
      fun k w ms rest h => absurd h (by omega)⟩
  | succ f ih =>
    obtain ⟨ihV, ihE, ihM⟩ := ih
    refine ⟨?_, ?_, ?_⟩
    · intro v rest hlen hstop
      cases v with
      | jnull => exact rfl
      | jbool b =>
        cases b with
        | true => exact rfl
        | false => exact rfl
      | jnum i =>
        show parseV (f + 1) (intChars i ++ rest) = some (.jnum i, rest)
        obtain ⟨c, t, hct, hcd, h1, h2, h3, h4, h5, h6⟩ := intChars_head i
        rw [hct, List.cons_append, parseV_succ, if_neg h1, if_neg h2, if_neg h3,
          if_neg h4, if_neg h5, if_neg h6, if_pos hcd, ← List.cons_append, ← hct,
          parseNum_intChars i rest hstop]
        rfl
      | jstr s =>
        show parseV (f + 1) ('"' :: ((escList s.data ++ ['"']) ++ rest))
            = some (.jstr s, rest)
        rw [parseV_succ, if_neg (by decide), if_neg (by decide), if_neg (by decide),
          if_pos rfl,
          show (escList s.data ++ ['"']) ++ rest = escList s.data ++ '"' :: rest
            from by simp,
          parseStrBody_escList]
        rfl
      | jarr es =>
        cases es with
        | nil => exact rfl
        | cons e es2 =>
          obtain ⟨c0, t0, hct, hws, _, hner, _⟩ := encodeV_head e
          have hE : encodeElems (e :: es2) ++ ']' :: rest
              = c0 :: (t0 ++ (encodeElemsTail es2 ++ ']' :: rest)) := by
            show (encodeV e ++ encodeElemsTail es2) ++ ']' :: rest = _
            rw [hct]; simp
          have hlen2 : (encodeElems (e :: es2)).length + 1 < f := by
            have hx : (encodeV (.jarr (e :: es2))).length
                = (encodeElems (e :: es2)).length + 2 := by
              show ('[' :: (encodeElems (e :: es2) ++ [']'])).length = _
              simp
            omega
          show parseV (f + 1) ('[' :: ((encodeElems (e :: es2) ++ [']']) ++ rest))
              = some (.jarr (e :: es2), rest)
          rw [parseV_succ, if_neg (by decide), if_neg (by decide),
            if_neg (by decide), if_neg (by decide), if_pos rfl,
            show (encodeElems (e :: es2) ++ [']']) ++ rest
              = encodeElems (e :: es2) ++ ']' :: rest from by simp,
            hE, skipJWs_cons _ _ hws]
          dsimp only
          rw [if_neg hner, ← hE, ihE e es2 rest hlen2]
          rfl
      | jobj ms =>
        cases ms with
        | nil => exact rfl
        | cons kv ms2 =>
          obtain ⟨k, w⟩ := kv
          obtain ⟨t0, ht0⟩ : ∃ t0, encodeMembers ((k, w) :: ms2) = '"' :: t0 :=
            ⟨_, rfl⟩
          have hE : encodeMembers ((k, w) :: ms2) ++ '\x7d' :: rest
              = '"' :: (t0 ++ '\x7d' :: rest) := by rw [ht0]; rfl
          have hlen2 : (encodeMembers ((k, w) :: ms2)).length + 1 < f := by
            have hx : (encodeV (.jobj ((k, w) :: ms2))).length
                = (encodeMembers ((k, w) :: ms2)).length + 2 := by
              show ('\x7b' :: (encodeMembers ((k, w) :: ms2) ++ ['\x7d'])).length = _
              simp
            omega
          show parseV (f + 1)
              ('\x7b' :: ((encodeMembers ((k, w) :: ms2) ++ ['\x7d']) ++ rest))
              = some (.jobj ((k, w) :: ms2), rest)
          rw [parseV_succ, if_neg (by decide), if_neg (by decide),
            if_neg (by decide), if_neg (by decide), if_neg (by decide),
            if_pos rfl,
            show (encodeMembers ((k, w) :: ms2) ++ ['\x7d']) ++ rest
              = encodeMembers ((k, w) :: ms2) ++ '\x7d' :: rest from by simp,
            hE, skipJWs_cons _ _ (by decide)]
          dsimp only
          rw [if_neg (by decide), ← hE, ihM k w ms2 rest hlen2]
          rfl
    · intro e es rest hlen
      rw [show encodeElems (e :: es) ++ ']' :: rest
          = encodeV e ++ (encodeElemsTail es ++ ']' :: rest) from by
        show (encodeV e ++ encodeElemsTail es) ++ ']' :: rest = _; simp]
      rw [parseElems_succ]
      have hstop2 : numStop (encodeElemsTail es ++ ']' :: rest) = true := by
        cases es with
        | nil => exact rfl
        | cons e2 es2 => exact rfl
      have hlenV : (encodeV e).length < f := by
        have hx : (encodeElems (e :: es)).length
            = (encodeV e).length + (encodeElemsTail es).length := by
          show (encodeV e ++ encodeElemsTail es).length = _; simp
        omega
      rw [ihV e _ hlenV hstop2]
      dsimp only
      cases es with
      | nil =>
        rw [show encodeElemsTail ([] : List JVal) ++ ']' :: rest = ']' :: rest
            from rfl,
          skipJWs_cons _ _ (by decide)]
        dsimp only
        rw [if_neg (by decide), if_pos rfl]
      | cons e2 es2 =>
        rw [show encodeElemsTail (e2 :: es2) ++ ']' :: rest
            = ',' :: ' ' :: (encodeElems (e2 :: es2) ++ ']' :: rest) from by
          show (',' :: ' ' :: (encodeV e2 ++ encodeElemsTail es2)) ++ ']' :: rest
              = ',' :: ' ' :: ((encodeV e2 ++ encodeElemsTail es2) ++ ']' :: rest)
          simp,
          skipJWs_cons _ _ (by decide)]
        dsimp only
        rw [if_pos rfl,
          show skipJWs (' ' :: (encodeElems (e2 :: es2) ++ ']' :: rest))
            = skipJWs (encodeElems (e2 :: es2) ++ ']' :: rest) from rfl]
        obtain ⟨c1, t1, hct1, hws1, _, _, _⟩ := encodeV_head e2
        have hE2 : encodeElems (e2 :: es2) ++ ']' :: rest
            = c1 :: (t1 ++ (encodeElemsTail es2 ++ ']' :: rest)) := by
          show (encodeV e2 ++ encodeElemsTail es2) ++ ']' :: rest = _
          rw [hct1]; simp
        rw [hE2, skipJWs_cons _ _ hws1, ← hE2]
        have hlen3 : (encodeElems (e2 :: es2)).length + 1 < f := by
          have hx : (encodeElems (e :: e2 :: es2)).length
              = (encodeV e).length + 2 + (encodeElems (e2 :: es2)).length := by
            show (encodeV e ++ (',' :: ' ' :: (encodeV e2 ++ encodeElemsTail es2))).length
                = (encodeV e).length + 2 + (encodeV e2 ++ encodeElemsTail es2).length
            simp
            omega
          omega
        rw [ihE e2 es2 rest hlen3]
        rfl
    · intro k w ms rest hlen
      have hE0 : encodeMembers ((k, w) :: ms) ++ '\x7d' :: rest
          = '"' :: (escList k.data ++ '"' ::
              (':' :: ' ' :: (encodeV w ++ (encodeMembersTail ms ++ '\x7d' :: rest)))) := by
        show (('"' :: (escList k.data ++ ['"']))
              ++ ':' :: ' ' :: (encodeV w ++ encodeMembersTail ms)) ++ '\x7d' :: rest = _
        simp
      have hlenW : (encodeV w).length < f := by
        have hx : (encodeMembers ((k, w) :: ms)).length
            = (escList k.data).length + 4 + (encodeV w).length
              + (encodeMembersTail ms).length := by
          show (('"' :: (escList k.data ++ ['"']))
                ++ ':' :: ' ' :: (encodeV w ++ encodeMembersTail ms)).length = _
          simp
          omega
        omega
      have hstopW : numStop (encodeMembersTail ms ++ '\x7d' :: rest) = true := by
        cases ms with
        | nil => exact rfl
        | cons kv2 ms2 => exact rfl
      rw [hE0, parseMembers_succ, if_pos rfl, parseStrBody_escList]
      dsimp only
      rw [skipJWs_cons _ _ (by decide)]
      dsimp only
      rw [if_pos rfl,
        show skipJWs (' ' :: (encodeV w ++ (encodeMembersTail ms ++ '\x7d' :: rest)))
          = skipJWs (encodeV w ++ (encodeMembersTail ms ++ '\x7d' :: rest)) from rfl]
      obtain ⟨c1, t1, hct1, hws1, _, _, _⟩ := encodeV_head w
      have hEw : encodeV w ++ (encodeMembersTail ms ++ '\x7d' :: rest)
          = c1 :: (t1 ++ (encodeMembersTail ms ++ '\x7d' :: rest)) := by
        rw [hct1]; simp
      rw [hEw, skipJWs_cons _ _ hws1, ← hEw, ihV w _ hlenW hstopW]
      dsimp only
      cases ms with
      | nil =>
        rw [show encodeMembersTail ([] : List (String × JVal)) ++ '\x7d' :: rest
            = '\x7d' :: rest from rfl,
          skipJWs_cons _ _ (by decide)]
        dsimp only
        rw [if_neg (by decide), if_pos rfl]
      | cons kv2 ms2 =>
        obtain ⟨k2, w2⟩ := kv2
        rw [show encodeMembersTail ((k2, w2) :: ms2) ++ '\x7d' :: rest
            = ',' :: ' ' :: (encodeMembers ((k2, w2) :: ms2) ++ '\x7d' :: rest) from by
          show (',' :: ' ' :: (encodeStrL k2 ++ ':' :: ' ' :: (encodeV w2 ++ encodeMembersTail ms2))) ++ '\x7d' :: rest
              = ',' :: ' ' :: ((encodeStrL k2 ++ ':' :: ' ' :: (encodeV w2 ++ encodeMembersTail ms2)) ++ '\x7d' :: rest)
          simp,
          skipJWs_cons _ _ (by decide)]
        dsimp only
        rw [if_pos rfl,
          show skipJWs (' ' :: (encodeMembers ((k2, w2) :: ms2) ++ '\x7d' :: rest))
            = skipJWs (encodeMembers ((k2, w2) :: ms2) ++ '\x7d' :: rest) from rfl]
        obtain ⟨t2, ht2⟩ : ∃ t2, encodeMembers ((k2, w2) :: ms2) = '"' :: t2 :=
          ⟨_, rfl⟩
        have hE2 : encodeMembers ((k2, w2) :: ms2) ++ '\x7d' :: rest
            = '"' :: (t2 ++ '\x7d' :: rest) := by rw [ht2]; rfl
        rw [hE2, skipJWs_cons _ _ (by decide), ← hE2]
        have hlen4 : (encodeMembers ((k2, w2) :: ms2)).length + 1 < f := by
          have hx : (encodeMembers ((k, w) :: (k2, w2) :: ms2)).length
              = (escList k.data).length + 4 + (encodeV w).length + 2
                + (encodeMembers ((k2, w2) :: ms2)).length := by
            show (('"' :: (escList k.data ++ ['"']))
                  ++ ':' :: ' ' :: (encodeV w
                    ++ (',' :: ' ' :: (encodeStrL k2 ++ ':' :: ' ' :: (encodeV w2 ++ encodeMembersTail ms2))))).length
                = (escList k.data).length + 4 + (encodeV w).length + 2
                  + (encodeStrL k2 ++ ':' :: ' ' :: (encodeV w2 ++ encodeMembersTail ms2)).length
            simp
            omega
          omega
        rw [ihM k2 w2 ms2 rest hlen4]
        rfl

end LlmClient

namespace LlmClient

/-! ### Decode of encode: part (a) of the round-trip -/

/-- `json.loads` inverts `json.dumps` on every value. -/
theorem jsonLoads_encodeV (v : JVal) : jsonLoads (encodeV v) = some v := by
  obtain ⟨c, t, hct, hws, _, _, _⟩ := encodeV_head v
  have hskip : skipJWs (encodeV v) = encodeV v := by
    rw [hct]; exact skipJWs_cons _ _ hws
  have hp : parseV ((encodeV v).length + 1) (encodeV v) = some (v, []) := by
    have h := (rt_parse ((encodeV v).length + 1)).1 v [] (Nat.lt_succ_self _) rfl
    simpa using h
  unfold jsonLoads
  rw [hskip, hp]
  rfl

/-- The first repair stage already succeeds on a clean rendering. -/
theorem tryParse_encodeV (v : JVal) : tryParse (encodeV v) = some v := by
  unfold tryParse
  rw [jsonLoads_encodeV]

/-- Stripping does not change a rendering. -/
theorem pyStrip_encodeV (v : JVal) : pyStrip (encodeV v) = encodeV v := by
  obtain ⟨c, t, hct, _, hpw, _, _⟩ := encodeV_head v
  obtain ⟨init, d, hid, hdw, _⟩ := encodeV_last v
  exact pyStrip_id _ c t init d hct hpw hid hdw

/-- `extract_json` decodes every rendered value back to itself. -/
theorem extractJson_encodeV (v : JVal) : extractJson (encodeV v) = .ok v := by
  show (match tryParse (pyStrip (encodeV v)) with
    | some w => Except.ok w
    | none =>
      match fencedSearch (pyStrip (encodeV v)) with
      | some content =>
        (match tryParse content with
         | some w => Except.ok w
         | none => extractSub (pyStrip (encodeV v)))
      | none => extractSub (pyStrip (encodeV v))) = Except.ok v
  rw [pyStrip_encodeV, tryParse_encodeV]

end LlmClient

namespace LlmClient

/-! ### Clean values: strings free of structural characters

The close-incomplete repair counts braces, brackets and unescaped quotes on
the RAW text, including occurrences inside string literals.  The repair is
only correct for documents whose string contents stay clear of those
characters; `cleanV` captures that restriction. -/

/-- A string character that cannot disturb the raw character counts of
`_close_incomplete_json`: not a brace, bracket or backslash. -/
def cleanChar (c : Char) : Bool :=
  !(c == '\x7b') && !(c == '\x7d') && !(c == '[') && !(c == ']') && !(c == '\\')

/-- A string all of whose characters are clean. -/
def cleanStr (s : String) : Bool := s.data.all cleanChar

mutual
/-- All strings of the value are clean. -/
def cleanV : JVal → Bool
  | .jstr s => cleanStr s
  | .jarr es => cleanElems es
  | .jobj ms => cleanMembers ms
  | _ => true
/-- All strings of the element list are clean. -/
def cleanElems : List JVal → Bool
  | [] => true
  | e :: es => cleanV e && cleanElems es
/-- All keys and values of the member list are clean. -/
def cleanMembers : List (String × JVal) → Bool
  | [] => true
  | (k, w) :: ms => cleanStr k && cleanV w && cleanMembers ms
end

/-- Unpack `cleanChar`. -/
theorem cleanChar_iff (c : Char) :
    cleanChar c = true ↔
      c ≠ '\x7b' ∧ c ≠ '\x7d' ∧ c ≠ '[' ∧ c ≠ ']' ∧ c ≠ '\\' := by
  simp [cleanChar, and_assoc]

/-- A lowercase hex digit is an unexceptional character. -/
theorem hexDigit_props (k : Nat) (h : k < 16) :
    hexDigit k ≠ '\n' ∧ hexDigit k ≠ '\r' ∧ hexDigit k ≠ '\x7b' ∧
    hexDigit k ≠ '\x7d' ∧ hexDigit k ≠ '[' ∧ hexDigit k ≠ ']' ∧
    hexDigit k ≠ '"' ∧ hexDigit k ≠ '\\' := by
  interval_cases k <;> refine ⟨by decide, by decide, by decide, by decide,
    by decide, by decide, by decide, by decide⟩

/-- The escape of any character contains no raw newline. -/
theorem escChar_no_nl (c : Char) : ∀ x ∈ escChar c, ¬(x = '\n' ∨ x = '\r') := by
  intro x hx
  unfold escChar at hx
  split_ifs at hx with h1 h2 h3 h4 h5 h6
  · simp at hx; rcases hx with rfl | rfl <;> decide
  · simp at hx; rcases hx with rfl | rfl <;> decide
  · simp at hx; rcases hx with rfl | rfl <;> decide
  · simp at hx; rcases hx with rfl | rfl <;> decide
  · simp at hx; rcases hx with rfl | rfl <;> decide
  · simp at hx
    rcases hx with rfl | rfl | rfl | rfl | rfl | rfl
    · decide
    · decide
    · exact fun ho => ho.elim
        (hexDigit_props _ (Nat.mod_lt _ (by norm_num))).1
        (hexDigit_props _ (Nat.mod_lt _ (by norm_num))).2.1
    · exact fun ho => ho.elim
        (hexDigit_props _ (Nat.mod_lt _ (by norm_num))).1
        (hexDigit_props _ (Nat.mod_lt _ (by norm_num))).2.1
    · exact fun ho => ho.elim
        (hexDigit_props _ (Nat.mod_lt _ (by norm_num))).1
        (hexDigit_props _ (Nat.mod_lt _ (by norm_num))).2.1
    · exact fun ho => ho.elim
        (hexDigit_props _ (Nat.mod_lt _ (by norm_num))).1
        (hexDigit_props _ (Nat.mod_lt _ (by norm_num))).2.1
  · simp at hx; subst hx; exact fun ho => ho.elim h3 h4

/-- The escape of a clean character contains no brace or bracket. -/
theorem escChar_clean (c : Char) (hc : cleanChar c = true) :
    ∀ x ∈ escChar c, x ≠ '\x7b' ∧ x ≠ '\x7d' ∧ x ≠ '[' ∧ x ≠ ']' := by
  intro x hx
  unfold escChar at hx
  split_ifs at hx with h1 h2 h3 h4 h5 h6
  · simp at hx; rcases hx with rfl | rfl <;>
      exact ⟨by decide, by decide, by decide, by decide⟩
  · simp at hx; rcases hx with rfl | rfl <;>
      exact ⟨by decide, by decide, by decide, by decide⟩
  · simp at hx; rcases hx with rfl | rfl <;>
      exact ⟨by decide, by decide, by decide, by decide⟩
  · simp at hx; rcases hx with rfl | rfl <;>
      exact ⟨by decide, by decide, by decide, by decide⟩
  · simp at hx; rcases hx with rfl | rfl <;>
      exact ⟨by decide, by decide, by decide, by decide⟩
  · simp at hx
    rcases hx with rfl | rfl | rfl | rfl | rfl | rfl
    · exact ⟨by decide, by decide, by decide, by decide⟩
    · exact ⟨by decide, by decide, by decide, by decide⟩
    · obtain ⟨_, _, p3, p4, p5, p6, _, _⟩ :=
        hexDigit_props _ (Nat.mod_lt (c.toNat / 4096) (by norm_num : (0:Nat) < 16))
      exact ⟨p3, p4, p5, p6⟩
    · obtain ⟨_, _, p3, p4, p5, p6, _, _⟩ :=
        hexDigit_props _ (Nat.mod_lt (c.toNat / 256) (by norm_num : (0:Nat) < 16))
      exact ⟨p3, p4, p5, p6⟩
    · obtain ⟨_, _, p3, p4, p5, p6, _, _⟩ :=
        hexDigit_props _ (Nat.mod_lt (c.toNat / 16) (by norm_num : (0:Nat) < 16))
      exact ⟨p3, p4, p5, p6⟩
    · obtain ⟨_, _, p3, p4, p5, p6, _, _⟩ :=
        hexDigit_props _ (Nat.mod_lt c.toNat (by norm_num : (0:Nat) < 16))
      exact ⟨p3, p4, p5, p6⟩
  · simp at hx; subst hx
    obtain ⟨hb1, hb2, hb3, hb4, _⟩ := (cleanChar_iff x).mp hc
    exact ⟨hb1, hb2, hb3, hb4⟩

/-- The escaped body of a list contains no raw newline. -/
theorem escList_no_nl (l : List Char) : ∀ x ∈ escList l, ¬(x = '\n' ∨ x = '\r') := by
  induction l with
  | nil => intro x hx; simp [escList] at hx
  | cons c t ih =>
    intro x hx
    rcases List.mem_append.mp hx with h | h
    · exact escChar_no_nl c x h
    · exact ih x h

/-- The escaped body of a clean list contains no brace or bracket. -/
theorem escList_clean (l : List Char) (hl : ∀ c ∈ l, cleanChar c = true) :
    ∀ x ∈ escList l, x ≠ '\x7b' ∧ x ≠ '\x7d' ∧ x ≠ '[' ∧ x ≠ ']' := by
  induction l with
  | nil => intro x hx; simp [escList] at hx
  | cons c t ih =>
    intro x hx
    rcases List.mem_append.mp hx with h | h
    · exact escChar_clean c (hl c (by simp)) x h
    · exact ih (fun d hd => hl d (by simp [hd])) x h

end LlmClient

namespace LlmClient

/-! ### Unescaped-quote counting -/

/-- The character preceding whatever follows `xs`, given the character (if
any) preceding `xs` itself. -/
def lastPrev (prev : Option Char) (xs : List Char) : Option Char :=
  match xs.getLast? with
  | some d => some d
  | none => prev

theorem lastPrev_nil (prev : Option Char) : lastPrev prev [] = prev := rfl

theorem lastPrev_concat (prev : Option Char) (xs : List Char) (d : Char) :
    lastPrev prev (xs ++ [d]) = some d := by
  simp [lastPrev]

theorem lastPrev_cons (prev : Option Char) (c : Char) (t : List Char) :
    lastPrev prev (c :: t) = lastPrev (some c) t := by
  cases t with
  | nil => rfl
  | cons d t2 =>
    show (match (c :: d :: t2).getLast? with | some e => some e | none => prev)
        = (match (d :: t2).getLast? with | some e => some e | none => some c)
    rw [List.getLast?_cons_cons]
    rcases h : (d :: t2).getLast? with _ | e
    · exact absurd h (by simp)
    · rfl

theorem lastPrev_append (prev : Option Char) (xs ys : List Char) :
    lastPrev prev (xs ++ ys) = lastPrev (lastPrev prev xs) ys := by
  rcases List.eq_nil_or_concat ys with rfl | ⟨zs, d, rfl⟩
  · simp [lastPrev_nil]
  · rw [List.concat_eq_append, ← List.append_assoc, lastPrev_concat,
      lastPrev_concat]

/-- The quote count splits over concatenation, threading the previous
character. -/
theorem cuq_append : ∀ (xs : List Char) (prev : Option Char) (ys : List Char),
    countUnescQ prev (xs ++ ys)
      = countUnescQ prev xs + countUnescQ (lastPrev prev xs) ys := by
  intro xs
  induction xs with
  | nil => intro prev ys; simp [countUnescQ, lastPrev_nil]
  | cons c t ih =>
    intro prev ys
    show (if c = '"' ∧ prev ≠ some '\\' then 1 else 0)
        + countUnescQ (some c) (t ++ ys) = _
    rw [ih (some c) ys, lastPrev_cons]
    show _ = (if c = '"' ∧ prev ≠ some '\\' then 1 else 0)
        + countUnescQ (some c) t + countUnescQ (lastPrev (some c) t) ys
    omega

theorem cuq_cons_ne (prev : Option Char) (c : Char) (r : List Char)
    (hc : c ≠ '"') : countUnescQ prev (c :: r) = countUnescQ (some c) r := by
  show (if c = '"' ∧ prev ≠ some '\\' then 1 else 0) + countUnescQ (some c) r = _
  rw [if_neg (fun h => hc h.1)]
  omega

theorem cuq_cons_q (prev : Option Char) (r : List Char)
    (hp : prev ≠ some '\\') :
    countUnescQ prev ('"' :: r) = 1 + countUnescQ (some '"') r := by
  show (if ('"' : Char) = '"' ∧ prev ≠ some '\\' then 1 else 0)
      + countUnescQ (some '"') r = _
  rw [if_pos ⟨rfl, hp⟩]

/-- A clean character escapes to a chunk with no unescaped quote, whatever
precedes it. -/
theorem escChar_cuq (c : Char) (hc : cleanChar c = true) (prev : Option Char) :
    countUnescQ prev (escChar c) = 0 := by
  unfold escChar
  split_ifs with h1 h2 h3 h4 h5 h6
  · rw [cuq_cons_ne _ _ _ (by decide)]; rfl
  · exact absurd h2 ((cleanChar_iff c).mp hc).2.2.2.2
  · rw [cuq_cons_ne _ _ _ (by decide)]; rfl
  · rw [cuq_cons_ne _ _ _ (by decide)]; rfl
  · rw [cuq_cons_ne _ _ _ (by decide)]; rfl
  · rw [cuq_cons_ne _ _ _ (by decide), cuq_cons_ne _ _ _ (by decide),
      cuq_cons_ne _ _ _ (hexDigit_props _ (Nat.mod_lt _ (by norm_num))).2.2.2.2.2.2.1,
      cuq_cons_ne _ _ _ (hexDigit_props _ (Nat.mod_lt _ (by norm_num))).2.2.2.2.2.2.1,
      cuq_cons_ne _ _ _ (hexDigit_props _ (Nat.mod_lt _ (by norm_num))).2.2.2.2.2.2.1,
      cuq_cons_ne _ _ _ (hexDigit_props _ (Nat.mod_lt _ (by norm_num))).2.2.2.2.2.2.1]
    rfl
  · rw [cuq_cons_ne _ _ _ h1]; rfl

/-- The escape of a clean character never ends in a backslash. -/
theorem escChar_lastPrev (c : Char) (hc : cleanChar c = true)
    (prev : Option Char) : lastPrev prev (escChar c) ≠ some '\\' := by
  unfold escChar
  split_ifs with h1 h2 h3 h4 h5 h6
  · rw [show ['\\', '"'] = ['\\'] ++ ['"'] from rfl, lastPrev_concat]; decide
  · exact absurd h2 ((cleanChar_iff c).mp hc).2.2.2.2
  · rw [show ['\\', 'n'] = ['\\'] ++ ['n'] from rfl, lastPrev_concat]; decide
  · rw [show ['\\', 'r'] = ['\\'] ++ ['r'] from rfl, lastPrev_concat]; decide
  · rw [show ['\\', 't'] = ['\\'] ++ ['t'] from rfl, lastPrev_concat]; decide
  · rw [show ['\\', 'u', hexDigit (c.toNat / 4096 % 16), hexDigit (c.toNat / 256 % 16),
        hexDigit (c.toNat / 16 % 16), hexDigit (c.toNat % 16)]
      = ['\\', 'u', hexDigit (c.toNat / 4096 % 16), hexDigit (c.toNat / 256 % 16),
        hexDigit (c.toNat / 16 % 16)] ++ [hexDigit (c.toNat % 16)] from rfl,
      lastPrev_concat]
    intro h
    exact (hexDigit_props _ (Nat.mod_lt _ (by norm_num))).2.2.2.2.2.2.2
      (Option.some.inj h)
  · rw [show [c] = [] ++ [c] from rfl, lastPrev_concat]
    intro h
    exact ((cleanChar_iff c).mp hc).2.2.2.2 (Option.some.inj h)

/-- A clean escaped body contributes no unescaped quote. -/
theorem escList_cuq (l : List Char) (hl : ∀ c ∈ l, cleanChar c = true) :
    ∀ prev, countUnescQ prev (escList l) = 0 := by
  induction l with
  | nil => intro prev; rfl
  | cons c t ih =>
    intro prev
    show countUnescQ prev (escChar c ++ escList t) = 0
    rw [cuq_append, escChar_cuq c (hl c (by simp)) prev,
      ih (fun d hd => hl d (by simp [hd]))]

/-- A clean escaped body never ends in a backslash. -/
theorem escList_lastPrev (l : List Char) (hl : ∀ c ∈ l, cleanChar c = true) :
    ∀ prev, prev ≠ some '\\' → lastPrev prev (escList l) ≠ some '\\' := by
  induction l with
  | nil => intro prev hp; exact hp
  | cons c t ih =>
    intro prev hp
    show lastPrev prev (escChar c ++ escList t) ≠ some '\\'
    rw [lastPrev_append]
    exact ih (fun d hd => hl d (by simp [hd])) _
      (escChar_lastPrev c (hl c (by simp)) prev)

/-- Characters that are all distinct from `x` give count zero. -/
theorem count_zero_of_forall_ne (l : List Char) (x : Char)
    (h : ∀ y ∈ l, y ≠ x) : l.count x = 0 := by
  rw [List.count_eq_zero]
  intro hx
  exact h x hx rfl

/-- A clean rendered string: no brace or bracket anywhere. -/
theorem encodeStrL_no_special (s : String) (hs : cleanStr s = true) :
    ∀ x ∈ encodeStrL s, x ≠ '\x7b' ∧ x ≠ '\x7d' ∧ x ≠ '[' ∧ x ≠ ']' := by
  intro x hx
  have hl : ∀ c ∈ s.data, cleanChar c = true := List.all_eq_true.mp hs
  simp only [encodeStrL, List.mem_cons, List.mem_append, List.mem_singleton,
    List.mem_nil_iff, or_false] at hx
  rcases hx with rfl | hx | rfl
  · exact ⟨by decide, by decide, by decide, by decide⟩
  · exact escList_clean s.data hl x hx
  · exact ⟨by decide, by decide, by decide, by decide⟩

/-- A clean rendered string holds exactly its two delimiting unescaped
quotes. -/
theorem encodeStrL_cuq (s : String) (hs : cleanStr s = true)
    (prev : Option Char) (hp : prev ≠ some '\\') :
    countUnescQ prev (encodeStrL s) = 2 := by
  have hl : ∀ c ∈ s.data, cleanChar c = true := List.all_eq_true.mp hs
  show countUnescQ prev ('"' :: (escList s.data ++ ['"'])) = 2
  rw [cuq_cons_q prev _ hp, cuq_append, escList_cuq s.data hl (some '"'),
    cuq_cons_q _ _ (escList_lastPrev s.data hl (some '"') (by decide))]
  rfl

/-- A clean rendered string ends in its closing quote. -/
theorem encodeStrL_lastPrev (s : String) (prev : Option Char) :
    lastPrev prev (encodeStrL s) = some '"' := by
  show lastPrev prev ('"' :: (escList s.data ++ ['"'])) = some '"'
  rw [show '"' :: (escList s.data ++ ['"'])
    = ('"' :: escList s.data) ++ ['"'] from by simp, lastPrev_concat]

end LlmClient

namespace LlmClient

/-! ### Raw-count invariants of clean renderings -/

/-- A digit run has no unescaped quote. -/
theorem cuq_zero_of_no_quote : ∀ (l : List Char), (∀ y ∈ l, y ≠ '"') →
    ∀ prev, countUnescQ prev l = 0 := by
  intro l
  induction l with
  | nil => intro _ prev; rfl
  | cons c t ih =>
    intro h prev
    rw [cuq_cons_ne prev c t (h c (by simp))]
    exact ih (fun y hy => h y (by simp [hy])) (some c)

/-- A rendered integer consists of a sign and digits only. -/
theorem intChars_no_special (i : Int) :
    ∀ x ∈ intChars i, (¬(x = '\n' ∨ x = '\r')) ∧ x ≠ '\x7b' ∧ x ≠ '\x7d' ∧
      x ≠ '[' ∧ x ≠ ']' ∧ x ≠ '"' := by
  intro x hx
  unfold intChars at hx
  by_cases hi : i < 0
  · rw [if_pos hi] at hx
    rcases List.mem_cons.mp hx with rfl | hx
    · exact ⟨by decide, by decide, by decide, by decide, by decide, by decide⟩
    · have hd := natChars_digits _ x hx
      exact ⟨fun ho => ho.elim (digit_ne_of x hd '\n' (by decide))
          (digit_ne_of x hd '\r' (by decide)),
        digit_ne_of x hd _ (by decide), digit_ne_of x hd _ (by decide),
        digit_ne_of x hd _ (by decide), digit_ne_of x hd _ (by decide),
        digit_ne_of x hd _ (by decide)⟩
  · rw [if_neg hi] at hx
    have hd := natChars_digits _ x hx
    exact ⟨fun ho => ho.elim (digit_ne_of x hd '\n' (by decide))
        (digit_ne_of x hd '\r' (by decide)),
      digit_ne_of x hd _ (by decide), digit_ne_of x hd _ (by decide),
      digit_ne_of x hd _ (by decide), digit_ne_of x hd _ (by decide),
      digit_ne_of x hd _ (by decide)⟩

/-- A rendered string has no raw newline. -/
theorem encodeStrL_no_nl (s : String) :
    ∀ x ∈ encodeStrL s, ¬(x = '\n' ∨ x = '\r') := by
  intro x hx
  simp only [encodeStrL, List.mem_cons, List.mem_append, List.mem_singleton,
    List.mem_nil_iff, or_false] at hx
  rcases hx with rfl | hx | rfl
  · decide
  · exact escList_no_nl s.data x hx
  · decide

/-- A rendered value never ends in a backslash. -/
theorem encodeV_lastPrev (v : JVal) (prev : Option Char) :
    lastPrev prev (encodeV v) ≠ some '\\' := by
  obtain ⟨init, d, hid, _, hd⟩ := encodeV_last v
  rw [hid, lastPrev_concat]
  intro h
  exact hd (Option.some.inj h)

/-- The raw-count invariant `_close_incomplete_json` relies on: no raw
newline, balanced braces, balanced brackets, and an even number of
unescaped quotes from any non-backslash predecessor. -/
def encOk (l : List Char) : Prop :=
  (∀ x ∈ l, ¬(x = '\n' ∨ x = '\r')) ∧
  l.count '\x7b' = l.count '\x7d' ∧
  l.count '[' = l.count ']' ∧
  (∀ prev, prev ≠ some '\\' → countUnescQ prev l % 2 = 0)

theorem encOk_nil : encOk [] := ⟨by simp, rfl, rfl, fun _ _ => rfl⟩

theorem encOk_append (l m : List Char) (hl : encOk l) (hm : encOk m)
    (hlp : ∀ prev, prev ≠ some '\\' → lastPrev prev l ≠ some '\\') :
    encOk (l ++ m) := by
  obtain ⟨a1, a2, a3, a4⟩ := hl
  obtain ⟨b1, b2, b3, b4⟩ := hm
  refine ⟨?_, ?_, ?_, ?_⟩
  · intro x hx
    rcases List.mem_append.mp hx with h | h
    · exact a1 x h
    · exact b1 x h
  · simp only [List.count_append]; omega
  · simp only [List.count_append]; omega
  · intro prev hp
    rw [cuq_append]
    have h1 := a4 prev hp
    have h2 := b4 (lastPrev prev l) (hlp prev hp)
    omega

theorem encOk_no_quote (l : List Char)
    (hnl : ∀ x ∈ l, ¬(x = '\n' ∨ x = '\r'))
    (hne : ∀ x ∈ l, x ≠ '\x7b' ∧ x ≠ '\x7d' ∧ x ≠ '[' ∧ x ≠ ']' ∧ x ≠ '"') :
    encOk l := by
  refine ⟨hnl, ?_, ?_, fun prev _ => ?_⟩
  · rw [count_zero_of_forall_ne _ _ (fun y hy => (hne y hy).1),
      count_zero_of_forall_ne _ _ (fun y hy => (hne y hy).2.1)]
  · rw [count_zero_of_forall_ne _ _ (fun y hy => (hne y hy).2.2.1),
      count_zero_of_forall_ne _ _ (fun y hy => (hne y hy).2.2.2.1)]
  · rw [cuq_zero_of_no_quote l (fun y hy => (hne y hy).2.2.2.2) prev]

theorem encOk_cons_plain (c : Char) (l : List Char)
    (h0 : ¬(c = '\n' ∨ c = '\r')) (h1 : c ≠ '\x7b') (h2 : c ≠ '\x7d')
    (h3 : c ≠ '[') (h4 : c ≠ ']') (h5 : c ≠ '"') (h6 : c ≠ '\\')
    (h : encOk l) : encOk (c :: l) := by
  obtain ⟨a1, a2, a3, a4⟩ := h
  refine ⟨?_, ?_, ?_, ?_⟩
  · intro x hx
    rcases List.mem_cons.mp hx with rfl | hx
    · exact h0
    · exact a1 x hx
  · simp only [List.count_cons, beq_iff_eq]
    rw [if_neg h1, if_neg h2]
    omega
  · simp only [List.count_cons, beq_iff_eq]
    rw [if_neg h3, if_neg h4]
    omega
  · intro prev _
    rw [cuq_cons_ne _ _ _ h5]
    exact a4 (some c) (fun hbs => h6 (Option.some.inj hbs))

theorem encOk_brack (l : List Char) (h : encOk l) : encOk ('[' :: (l ++ [']'])) := by
  obtain ⟨a1, a2, a3, a4⟩ := h
  refine ⟨?_, ?_, ?_, ?_⟩
  · intro x hx
    rcases List.mem_cons.mp hx with rfl | hx
    · decide
    rcases List.mem_append.mp hx with hx | hx
    · exact a1 x hx
    · rcases List.mem_singleton.mp hx with rfl; decide
  · simp +decide only [List.count_cons, List.count_append, List.count_nil,
      beq_iff_eq]
    omega
  · simp +decide only [List.count_cons, List.count_append, List.count_nil,
      beq_iff_eq]
    omega
  · intro prev _
    rw [cuq_cons_ne _ _ _ (by decide), cuq_append, cuq_cons_ne _ _ _ (by decide)]
    have h1 := a4 (some '[') (by decide)
    have h2 : countUnescQ (some ']') ([] : List Char) = 0 := rfl
    omega

theorem encOk_brace (l : List Char) (h : encOk l) :
    encOk ('\x7b' :: (l ++ ['\x7d'])) := by
  obtain ⟨a1, a2, a3, a4⟩ := h
  refine ⟨?_, ?_, ?_, ?_⟩
  · intro x hx
    rcases List.mem_cons.mp hx with rfl | hx
    · decide
    rcases List.mem_append.mp hx with hx | hx
    · exact a1 x hx
    · rcases List.mem_singleton.mp hx with rfl; decide
  · simp +decide only [List.count_cons, List.count_append, List.count_nil,
      beq_iff_eq]
    omega
  · simp +decide only [List.count_cons, List.count_append, List.count_nil,
      beq_iff_eq]
    omega
  · intro prev _
    rw [cuq_cons_ne _ _ _ (by decide), cuq_append, cuq_cons_ne _ _ _ (by decide)]
    have h1 := a4 (some '\x7b') (by decide)
    have h2 : countUnescQ (some '\x7d') ([] : List Char) = 0 := rfl
    omega

theorem encOk_str (s : String) (hs : cleanStr s = true) :
    encOk (encodeStrL s) := by
  refine ⟨encodeStrL_no_nl s, ?_, ?_, fun prev hp => ?_⟩
  · rw [count_zero_of_forall_ne _ _ (fun y hy => (encodeStrL_no_special s hs y hy).1),
      count_zero_of_forall_ne _ _ (fun y hy => (encodeStrL_no_special s hs y hy).2.1)]
  · rw [count_zero_of_forall_ne _ _ (fun y hy => (encodeStrL_no_special s hs y hy).2.2.1),
      count_zero_of_forall_ne _ _ (fun y hy => (encodeStrL_no_special s hs y hy).2.2.2)]
  · rw [encodeStrL_cuq s hs prev hp]

mutual
/-- A clean value renders to raw-count-invariant text. -/
theorem encOkV (v : JVal) (hv : cleanV v = true) : encOk (encodeV v) := by
  cases v with
  | jnull => exact encOk_no_quote _ (by decide) (by decide)
  | jbool b =>
    cases b with
    | true => exact encOk_no_quote _ (by decide) (by decide)
    | false => exact encOk_no_quote _ (by decide) (by decide)
  | jnum i =>
    show encOk (intChars i)
    exact encOk_no_quote _ (fun x hx => (intChars_no_special i x hx).1)
      (fun x hx => ⟨(intChars_no_special i x hx).2.1,
        (intChars_no_special i x hx).2.2.1, (intChars_no_special i x hx).2.2.2.1,
        (intChars_no_special i x hx).2.2.2.2.1,
        (intChars_no_special i x hx).2.2.2.2.2⟩)
  | jstr s => exact encOk_str s hv
  | jarr es => exact encOk_brack _ (encOkElems es hv)
  | jobj ms => exact encOk_brace _ (encOkMembers ms hv)
/-- A clean element list renders to raw-count-invariant text. -/
theorem encOkElems (es : List JVal) (hv : cleanElems es = true) :
    encOk (encodeElems es) := by
  cases es with
  | nil => exact encOk_nil
  | cons e es2 =>
    have hv2 : (cleanV e && cleanElems es2) = true := hv
    obtain ⟨ha, hb⟩ : cleanV e = true ∧ cleanElems es2 = true := by
      simpa using hv2
    show encOk (encodeV e ++ encodeElemsTail es2)
    exact encOk_append _ _ (encOkV e ha) (encOkElemsTail es2 hb)
      (fun prev _ => encodeV_lastPrev e prev)
/-- A clean element tail renders to raw-count-invariant text. -/
theorem encOkElemsTail (es : List JVal) (hv : cleanElems es = true) :
    encOk (encodeElemsTail es) := by
  cases es with
  | nil => exact encOk_nil
  | cons e es2 =>
    have hv2 : (cleanV e && cleanElems es2) = true := hv
    obtain ⟨ha, hb⟩ : cleanV e = true ∧ cleanElems es2 = true := by
      simpa using hv2
    show encOk (',' :: ' ' :: (encodeV e ++ encodeElemsTail es2))
    exact encOk_cons_plain ',' _ (by decide) (by decide) (by decide) (by decide)
      (by decide) (by decide) (by decide)
      (encOk_cons_plain ' ' _ (by decide) (by decide) (by decide) (by decide)
        (by decide) (by decide) (by decide)
        (encOk_append _ _ (encOkV e ha) (encOkElemsTail es2 hb)
          (fun prev _ => encodeV_lastPrev e prev)))
/-- A clean member list renders to raw-count-invariant text. -/
theorem encOkMembers (ms : List (String × JVal)) (hv : cleanMembers ms = true) :
    encOk (encodeMembers ms) := by
  cases ms with
  | nil => exact encOk_nil
  | cons kv ms2 =>
    obtain ⟨k, w⟩ := kv
    have hv2 : (cleanStr k && cleanV w && cleanMembers ms2) = true := hv
    obtain ⟨⟨hk, hw⟩, hm⟩ :
        (cleanStr k = true ∧ cleanV w = true) ∧ cleanMembers ms2 = true := by
      simpa using hv2
    show encOk (encodeStrL k ++ ':' :: ' ' :: (encodeV w ++ encodeMembersTail ms2))
    refine encOk_append _ _ (encOk_str k hk) ?_ ?_
    · exact encOk_cons_plain ':' _ (by decide) (by decide) (by decide) (by decide)
        (by decide) (by decide) (by decide)
        (encOk_cons_plain ' ' _ (by decide) (by decide) (by decide) (by decide)
          (by decide) (by decide) (by decide)
          (encOk_append _ _ (encOkV w hw) (encOkMembersTail ms2 hm)
            (fun prev _ => encodeV_lastPrev w prev)))
    · intro prev _
      rw [encodeStrL_lastPrev]
      decide
/-- A clean member tail renders to raw-count-invariant text. -/
theorem encOkMembersTail (ms : List (String × JVal))
    (hv : cleanMembers ms = true) : encOk (encodeMembersTail ms) := by
  cases ms with
  | nil => exact encOk_nil
  | cons kv ms2 =>
    obtain ⟨k, w⟩ := kv
    have hv2 : (cleanStr k && cleanV w && cleanMembers ms2) = true := hv
    obtain ⟨⟨hk, hw⟩, hm⟩ :
        (cleanStr k = true ∧ cleanV w = true) ∧ cleanMembers ms2 = true := by
      simpa using hv2
    show encOk (',' :: ' ' ::
      (encodeStrL k ++ ':' :: ' ' :: (encodeV w ++ encodeMembersTail ms2)))
    refine encOk_cons_plain ',' _ (by decide) (by decide) (by decide) (by decide)
      (by decide) (by decide) (by decide)
      (encOk_cons_plain ' ' _ (by decide) (by decide) (by decide) (by decide)
        (by decide) (by decide) (by decide) ?_)
    refine encOk_append _ _ (encOk_str k hk) ?_ ?_
    · exact encOk_cons_plain ':' _ (by decide) (by decide) (by decide) (by decide)
        (by decide) (by decide) (by decide)
        (encOk_cons_plain ' ' _ (by decide) (by decide) (by decide) (by decide)
          (by decide) (by decide) (by decide)
          (encOk_append _ _ (encOkV w hw) (encOkMembersTail ms2 hm)
            (fun prev _ => encodeV_lastPrev w prev)))
    · intro prev _
      rw [encodeStrL_lastPrev]
      decide
end

end LlmClient

namespace LlmClient

/-! ### The truncated object: parse failure and repair -/

/-- Without its closing brace, a rendered member list runs off the end of
the input: `parseMembers` fails. -/
theorem parseMembers_noClose :
    ∀ (fuel : Nat) (k : String) (w : JVal) (ms : List (String × JVal)),
      (encodeMembers ((k, w) :: ms)).length < fuel →
      parseMembers fuel (encodeMembers ((k, w) :: ms)) = none := by
  intro fuel
  induction fuel with
  | zero => intro k w ms h; exact absurd h (by omega)
  | succ f ih =>
    intro k w ms hlen
    have hE0 : encodeMembers ((k, w) :: ms)
        = '"' :: (escList k.data ++ '"' ::
            (':' :: ' ' :: (encodeV w ++ encodeMembersTail ms))) := by
      show ('"' :: (escList k.data ++ ['"']))
            ++ ':' :: ' ' :: (encodeV w ++ encodeMembersTail ms) = _
      simp
    rw [hE0, parseMembers_succ, if_pos rfl, parseStrBody_escList]
    dsimp only
    rw [skipJWs_cons _ _ (by decide)]
    dsimp only
    rw [if_pos rfl,
      show skipJWs (' ' :: (encodeV w ++ encodeMembersTail ms))
        = skipJWs (encodeV w ++ encodeMembersTail ms) from rfl]
    obtain ⟨c1, t1, hct1, hws1, _, _, _⟩ := encodeV_head w
    have hEw : encodeV w ++ encodeMembersTail ms
        = c1 :: (t1 ++ encodeMembersTail ms) := by rw [hct1]; simp
    rw [hEw, skipJWs_cons _ _ hws1, ← hEw]
    have hlenW : (encodeV w).length < f := by
      have hx : (encodeMembers ((k, w) :: ms)).length
          = (escList k.data).length + 4 + (encodeV w).length
            + (encodeMembersTail ms).length := by
        show (('"' :: (escList k.data ++ ['"']))
              ++ ':' :: ' ' :: (encodeV w ++ encodeMembersTail ms)).length = _
        simp
        omega
      omega
    have hstopW : numStop (encodeMembersTail ms) = true := by
      cases ms with
      | nil => exact rfl
      | cons kv2 ms2 => obtain ⟨k2, w2⟩ := kv2; exact rfl
    rw [(rt_parse f).1 w _ hlenW hstopW]
    dsimp only
    cases ms with
    | nil => rfl
    | cons kv2 ms2 =>
      obtain ⟨k2, w2⟩ := kv2
      rw [show encodeMembersTail ((k2, w2) :: ms2)
          = ',' :: ' ' :: encodeMembers ((k2, w2) :: ms2) from rfl,
        skipJWs_cons _ _ (by decide)]
      dsimp only
      rw [if_pos rfl,
        show skipJWs (' ' :: encodeMembers ((k2, w2) :: ms2))
          = skipJWs (encodeMembers ((k2, w2) :: ms2)) from rfl]
      obtain ⟨t2, ht2⟩ : ∃ t2, encodeMembers ((k2, w2) :: ms2) = '"' :: t2 :=
        ⟨_, rfl⟩
      rw [ht2, skipJWs_cons _ _ (by decide), ← ht2]
      have hlen2 : (encodeMembers ((k2, w2) :: ms2)).length < f := by
        have hx1 : (encodeMembers ((k, w) :: (k2, w2) :: ms2)).length
            = (escList k.data).length + 4 + (encodeV w).length + 2
              + (encodeMembers ((k2, w2) :: ms2)).length := by
          show (('"' :: (escList k.data ++ ['"'])) ++ ':' :: ' ' ::
              (encodeV w ++ (',' :: ' ' :: encodeMembers ((k2, w2) :: ms2)))).length
              = _
          simp
          omega
        omega
      rw [ih k2 w2 ms2 hlen2]
      rfl

/-- `json.loads` rejects an object whose closing brace was removed. -/
theorem jsonLoads_noClose (k : String) (w : JVal) (ms : List (String × JVal)) :
    jsonLoads ('\x7b' :: encodeMembers ((k, w) :: ms)) = none := by
  obtain ⟨t0, ht0⟩ : ∃ t0, encodeMembers ((k, w) :: ms) = '"' :: t0 := ⟨_, rfl⟩
  unfold jsonLoads
  rw [skipJWs_cons _ _ (by decide),
    show ('\x7b' :: encodeMembers ((k, w) :: ms)).length + 1
      = (encodeMembers ((k, w) :: ms)).length + 1 + 1 from by simp,
    parseV_succ, if_neg (by decide), if_neg (by decide), if_neg (by decide),
    if_neg (by decide), if_neg (by decide), if_pos rfl, ht0,
    skipJWs_cons _ _ (by decide)]
  dsimp only
  rw [if_neg (by decide), ← ht0,
    parseMembers_noClose _ k w ms (Nat.lt_succ_self _)]
  rfl

/-- `_sanitize_json_string` is the identity on text without raw newlines. -/
theorem sanitizeGo_id : ∀ (l : List Char), (∀ c ∈ l, ¬(c = '\n' ∨ c = '\r')) →
    ∀ a b, sanitizeGo a b l = l := by
  intro l
  induction l with
  | nil => intro _ a b; cases b <;> rfl
  | cons c r ih =>
    intro h a b
    have hc := h c (by simp)
    have hr := fun x hx => h x (List.mem_cons_of_mem c hx)
    cases b with
    | true =>
      show c :: sanitizeGo a false r = c :: r
      rw [ih hr a false]
    | false =>
      show (if c = '\\' then c :: sanitizeGo a true r
        else if c = '"' then c :: sanitizeGo (!a) false r
        else if (c = '\n' ∨ c = '\r') ∧ a = true then ' ' :: sanitizeGo a false r
        else c :: sanitizeGo a false r) = c :: r
      split_ifs with h1 h2 h3
      · rw [ih hr a true]
      · rw [ih hr (!a) false]
      · exact absurd h3.1 hc
      · rw [ih hr a false]

/-- A nonempty rendered member list ends in a non-whitespace character. -/
theorem encodeMembers_last : ∀ (ms : List (String × JVal)) (k : String) (w : JVal),
    ∃ init d, encodeMembers ((k, w) :: ms) = init ++ [d] ∧
      isPySpace d = false ∧ d ≠ '\\' := by
  intro ms
  induction ms with
  | nil =>
    intro k w
    obtain ⟨init, d, hid, h1, h2⟩ := encodeV_last w
    refine ⟨encodeStrL k ++ ':' :: ' ' :: init, d, ?_, h1, h2⟩
    show encodeStrL k ++ ':' :: ' ' :: (encodeV w ++ []) = _
    rw [hid]
    simp
  | cons kv2 ms2 ih =>
    intro k w
    obtain ⟨k2, w2⟩ := kv2
    obtain ⟨init, d, hid, h1, h2⟩ := ih k2 w2
    refine ⟨encodeStrL k ++ ':' :: ' ' :: (encodeV w ++ ',' :: ' ' :: init), d,
      ?_, h1, h2⟩
    show encodeStrL k ++ ':' :: ' ' ::
        (encodeV w ++ (',' :: ' ' :: encodeMembers ((k2, w2) :: ms2))) = _
    rw [hid]
    simp

/-- Dropping the last character of a rendered object removes exactly its
closing brace. -/
theorem encode_obj_dropLast (ms : List (String × JVal)) :
    (encodeV (.jobj ms)).dropLast = '\x7b' :: encodeMembers ms := by
  show ('\x7b' :: (encodeMembers ms ++ ['\x7d'])).dropLast = _
  rw [show '\x7b' :: (encodeMembers ms ++ ['\x7d'])
      = ('\x7b' :: encodeMembers ms) ++ ['\x7d'] from by simp,
    List.dropLast_concat]

/-- A rendered object ends in its closing brace. -/
theorem encode_obj_getLast (ms : List (String × JVal)) :
    (encodeV (.jobj ms)).getLast? = some '\x7d' := by
  show ('\x7b' :: (encodeMembers ms ++ ['\x7d'])).getLast? = _
  rw [show '\x7b' :: (encodeMembers ms ++ ['\x7d'])
      = ('\x7b' :: encodeMembers ms) ++ ['\x7d'] from by simp,
    List.getLast?_concat]

/-- The close-incomplete repair recovers a clean object whose closing brace
was removed: the quote count is even, the bracket count balanced, and the
brace count off by exactly one. -/
theorem extract_recover_clean (ms : List (String × JVal))
    (hm : cleanMembers ms = true) :
    extractJson ((encodeV (.jobj ms)).dropLast) = .ok (.jobj ms) := by
  rw [encode_obj_dropLast]
  cases ms with
  | nil => rfl
  | cons kv ms2 =>
    obtain ⟨k, w⟩ := kv
    obtain ⟨hnl, hbr, hbk, hq⟩ := encOkMembers ((k, w) :: ms2) hm
    have hstrip : pyStrip ('\x7b' :: encodeMembers ((k, w) :: ms2))
        = '\x7b' :: encodeMembers ((k, w) :: ms2) := by
      obtain ⟨init, d, hid, hdw, _⟩ := encodeMembers_last ms2 k w
      exact pyStrip_id _ '\x7b' _ ('\x7b' :: init) d rfl (by decide)
        (by rw [hid]; simp) hdw
    have hL1 : jsonLoads ('\x7b' :: encodeMembers ((k, w) :: ms2)) = none :=
      jsonLoads_noClose k w ms2
    have hsan : sanitizeJsonString ('\x7b' :: encodeMembers ((k, w) :: ms2))
        = '\x7b' :: encodeMembers ((k, w) :: ms2) := by
      apply sanitizeGo_id
      intro c hc
      rcases List.mem_cons.mp hc with rfl | hc
      · decide
      · exact hnl c hc
    have hquote :
        countUnescapedQuotes ('\x7b' :: encodeMembers ((k, w) :: ms2)) % 2 = 0 := by
      show countUnescQ none ('\x7b' :: encodeMembers ((k, w) :: ms2)) % 2 = 0
      rw [cuq_cons_ne _ _ _ (by decide)]
      exact hq (some '\x7b') (by decide)
    have hclose : closeIncompleteJson ('\x7b' :: encodeMembers ((k, w) :: ms2))
        = encodeV (.jobj ((k, w) :: ms2)) := by
      have hcnt1 : ('\x7b' :: encodeMembers ((k, w) :: ms2)).count '\x7b'
          - ('\x7b' :: encodeMembers ((k, w) :: ms2)).count '\x7d' = 1 := by
        have hc1 : ('\x7b' :: encodeMembers ((k, w) :: ms2)).count '\x7b'
            = (encodeMembers ((k, w) :: ms2)).count '\x7b' + 1 := by
          simp [List.count_cons]
        have hc2 : ('\x7b' :: encodeMembers ((k, w) :: ms2)).count '\x7d'
            = (encodeMembers ((k, w) :: ms2)).count '\x7d' := by
          simp [List.count_cons]
        rw [hc1, hc2]
        omega
      have hcnt2 : ('\x7b' :: encodeMembers ((k, w) :: ms2)).count '['
          - ('\x7b' :: encodeMembers ((k, w) :: ms2)).count ']' = 0 := by
        have hc1 : ('\x7b' :: encodeMembers ((k, w) :: ms2)).count '['
            = (encodeMembers ((k, w) :: ms2)).count '[' := by
          simp [List.count_cons]
        have hc2 : ('\x7b' :: encodeMembers ((k, w) :: ms2)).count ']'
            = (encodeMembers ((k, w) :: ms2)).count ']' := by
          simp [List.count_cons]
        rw [hc1, hc2]
        omega
      have hrfl : closeIncompleteJson ('\x7b' :: encodeMembers ((k, w) :: ms2))
          = ((if countUnescapedQuotes ('\x7b' :: encodeMembers ((k, w) :: ms2)) % 2 ≠ 0
              then ('\x7b' :: encodeMembers ((k, w) :: ms2)) ++ ['"']
              else '\x7b' :: encodeMembers ((k, w) :: ms2))
            ++ List.replicate (('\x7b' :: encodeMembers ((k, w) :: ms2)).count '['
                - ('\x7b' :: encodeMembers ((k, w) :: ms2)).count ']') ']')
            ++ List.replicate (('\x7b' :: encodeMembers ((k, w) :: ms2)).count '\x7b'
                - ('\x7b' :: encodeMembers ((k, w) :: ms2)).count '\x7d') '\x7d' := rfl
      rw [hrfl, hcnt1, hcnt2, if_neg (not_ne_iff.mpr hquote)]
      show (('\x7b' :: encodeMembers ((k, w) :: ms2)) ++ []) ++ ['\x7d']
          = '\x7b' :: (encodeMembers ((k, w) :: ms2) ++ ['\x7d'])
      simp
    have htp : tryParse ('\x7b' :: encodeMembers ((k, w) :: ms2))
        = some (.jobj ((k, w) :: ms2)) := by
      unfold tryParse
      rw [hsan, hclose, hL1, jsonLoads_encodeV]
    show (match tryParse (pyStrip ('\x7b' :: encodeMembers ((k, w) :: ms2))) with
      | some v => Except.ok v
      | none =>
        match fencedSearch (pyStrip ('\x7b' :: encodeMembers ((k, w) :: ms2))) with
        | some content =>
          (match tryParse content with
           | some v => Except.ok v
           | none => extractSub (pyStrip ('\x7b' :: encodeMembers ((k, w) :: ms2))))
        | none => extractSub (pyStrip ('\x7b' :: encodeMembers ((k, w) :: ms2))))
        = Except.ok (.jobj ((k, w) :: ms2))
    rw [hstrip, htp]

end LlmClient

namespace LlmClient

/-- C2: decoder round-trip, with the close-incomplete recovery restricted
to clean documents.  (a) For every JSON value `v`, `extract_json` applied
to the `json.dumps` rendering of `v` returns `v`.  (b) For every top-level
object whose strings (keys and values, throughout the tree) contain no
brace, bracket or backslash characters, removing the trailing `'\x7d'` of
the rendering still decodes to the original object: the raw character
counts of `_close_incomplete_json` then see balanced brackets, an even
number of unescaped quotes, and exactly one open brace, so the repair
appends the missing `'\x7d'` and the reparse succeeds.  (The unrestricted
recovery asserted by the claim fails, see the counterexample: a `'\x7d'`
inside a string value defeats the raw counts.) -/
theorem C2_theorem :
    (∀ v : JVal, extractJson (encodeV v) = .ok v) ∧
    (∀ ms : List (String × JVal), cleanMembers ms = true →
      (encodeV (.jobj ms)).getLast? = some '\x7d' ∧
      extractJson ((encodeV (.jobj ms)).dropLast) = .ok (.jobj ms)) :=
  ⟨extractJson_encodeV,
    fun ms hm => ⟨encode_obj_getLast ms, extract_recover_clean ms hm⟩⟩

/-- C2: witness.  A concrete clean object: encode, drop the closing brace,
recover. -/
theorem C2_witness :
    cleanMembers [("a", .jstr "hola")] = true ∧
    ((encodeV (.jobj [("a", .jstr "hola")])).getLast? = some '\x7d' ∧
      extractJson ((encodeV (.jobj [("a", .jstr "hola")])).dropLast)
        = .ok (.jobj [("a", .jstr "hola")])) :=
  ⟨by decide, C2_theorem.2 [("a", .jstr "hola")] (by decide)⟩

end LlmClient

namespace Service

/-! ## The `/classify` endpoint (ai-service/main.py) and its backend caller
(app/ai_bridge.py `classify_with_ai`)

`classify_note` decodes the oracle reply with `extract_json`, whose
`ValueError` on undecodable output propagates uncaught, carrying the
stripped text.  The `/classify` endpoint, however, never reaches it: the
handler evaluates `request.lang` while building the call, `NoteRequest`
(models.py) defines no `lang` field (and `classify_note` takes no `lang`
parameter), so an `AttributeError` is raised inside the `try` and the
blanket `except Exception` answers HTTP 500 with that attribute-error
text, for every oracle reply alike.  An oracle that is not running yields
HTTP 503 before that.  The backend caller posts to the endpoint, calls
`raise_for_status()` and catches `httpx.ConnectError` and every other
exception alike, returning `None` in both cases. -/

/-- The response of the `/classify` endpoint: a result list, or an HTTP
error status with its detail string. -/
inductive SvcResponse where
  | ok (results : List Classifier.ClassificationResult)
  | err (status : Nat) (detail : List Char)

/-- `dict.get` on a decoded JSON object (later duplicate keys override
earlier ones, as in Python dict construction). -/
def jGet (ms : List (String × LlmClient.JVal)) (key : String) :
    Option LlmClient.JVal :=
  match ms with
  | [] => none
  | (k, v) :: r =>
    match jGet r key with
    | some w => some w
    | none => if k = key then some v else none

/-- A JSON string field, if present with that type. -/
def asStr : Option LlmClient.JVal → Option String
  | some (.jstr s) => some s
  | _ => none

/-- A JSON boolean field, if present with that type. -/
def asBool : Option LlmClient.JVal → Option Bool
  | some (.jbool b) => some b
  | _ => none

/-- A `rename_group` object with `old_name`/`new_name` string fields. -/
def asRename : Option LlmClient.JVal → Option Classifier.RenamePair
  | some (.jobj ms) =>
    (match asStr (jGet ms "old_name"), asStr (jGet ms "new_name") with
     | some o, some n => some ⟨o, n⟩
     | _, _ => none)
  | _ => none

/-- The raw LLM item read off a decoded JSON object (the `data.get(...)`
accesses of `_build_single_result`). -/
def itemOfJVal (ms : List (String × LlmClient.JVal)) : Classifier.RawItem :=
  { makes_sense := asBool (jGet ms "makes_sense")
    reason := asStr (jGet ms "reason")
    action := asStr (jGet ms "action")
    group := asStr (jGet ms "group")
    subgroup := asStr (jGet ms "subgroup")
    idea := asStr (jGet ms "idea")
    is_new_group := asBool (jGet ms "is_new_group")
    is_new_subgroup := asBool (jGet ms "is_new_subgroup")
    inherit_parent_ideas := asBool (jGet ms "inherit_parent_ideas")
    rename_group := asRename (jGet ms "rename_group") }

/-- The 503 detail when Ollama is down (abbreviated). -/
def OLLAMA_MSG : List Char := "Ollama no esta corriendo.".data

/-- The `ValueError` message prefix of `extract_json`; `str(exc)` appends
the stripped oracle text. -/
def DECODE_MSG : List Char :=
  "No se encontró JSON válido en la respuesta del LLM:\n".data

/-- The detail of the 500 raised when the decoded value is not a dict and
`data.get` fails with `AttributeError`. -/
def ATTR_MSG : List Char := "object has no attribute get".data

/-- The 500 detail of the failure the endpoint actually produces: the
`AttributeError` text for `request.lang` on a `NoteRequest` that defines
no `lang` field (abbreviated without punctuation). -/
def LANG_ATTR_MSG : List Char :=
  "NoteRequest object has no attribute lang".data

/-- `classify_note` itself (classifier.py lines 1017-1039), applied to the
oracle reply (`_call_ollama` is an external collaborator): decode via
`extract_json`, then dispatch — a decoded array keeps its dict elements
(`isinstance(item, dict)`), a decoded object is a single result, a scalar
fails in `data.get` with `AttributeError`.  The `ValueError` of an
undecodable reply propagates uncaught, carrying the stripped text. -/
def classifyNoteFn (raw : List Char) (note : String)
    (existing : List Classifier.GroupInfo) :
    Except (List Char) (List Classifier.ClassificationResult) :=
  match LlmClient.extractJson raw with
  | .error t => .error (DECODE_MSG ++ t)
  | .ok (.jarr es) =>
    .ok (Classifier.classifyNote
      (.many (es.filterMap fun e =>
        match e with
        | .jobj ms => some (itemOfJVal ms)
        | _ => none)) note existing)
  | .ok (.jobj ms) =>
    .ok (Classifier.classifyNote (.one (itemOfJVal ms)) note existing)
  | .ok _ => .error ATTR_MSG

/-- The `/classify` endpoint (ai-service/main.py lines 131-184): 503 when
the oracle is down; otherwise the handler evaluates
`classify_note(request.text, request.existing_groups, lang=request.lang or "es")`
inside its `try` — but `NoteRequest` has no `lang` field and
`classify_note` takes no `lang` parameter, so the attribute access raises
`AttributeError` while the arguments are being evaluated, before
`classify_note`, the oracle or the decoder run, and the endpoint answers
500 with that text regardless of the oracle reply. -/
def serviceClassify (ollamaRunning : Bool) (raw : List Char) (note : String)
    (existing : List Classifier.GroupInfo) : SvcResponse :=
  if ollamaRunning = false then .err 503 OLLAMA_MSG
  else .err 500 LANG_ATTR_MSG

/-- What the backend sees: a transport-level connection failure, or the
service response. -/
inductive Transport where
  | connectError
  | response (r : SvcResponse)

/-- `classify_with_ai` (app/ai_bridge.py lines 128-151): `ConnectError`
returns `None`; `raise_for_status()` on the 4xx/5xx statuses the service
emits raises, and the blanket `except Exception` also returns `None`; a
successful response returns the result list. -/
def classifyWithAi : Transport → Option (List Classifier.ClassificationResult)
  | .connectError => none
  | .response (.ok results) => some results
  | .response (.err _ _) => none

/-- A decode error of `extract_json` always carries the stripped input. -/
theorem extractSubArr_error (u t : List Char)
    (h : LlmClient.extractSub.extractSubArr u = .error t) : t = u := by
  unfold LlmClient.extractSub.extractSubArr at h
  rcases hbc : LlmClient.braceChunk u '[' ']' with _ | chunk
  · rw [hbc] at h
    try dsimp only at h
    injection h with h2
    exact h2.symm
  · rw [hbc] at h
    try dsimp only at h
    rcases htp : LlmClient.tryParse chunk with _ | v
    · rw [htp] at h
      try dsimp only at h
      injection h with h2
      exact h2.symm
    · rw [htp] at h
      try dsimp only at h
      exact Except.noConfusion h

theorem extractSub_error (u t : List Char)
    (h : LlmClient.extractSub u = .error t) : t = u := by
  unfold LlmClient.extractSub at h
  rcases hbc : LlmClient.braceChunk u '\x7b' '\x7d' with _ | chunk
  · rw [hbc] at h
    try dsimp only at h
    exact extractSubArr_error u t h
  · rw [hbc] at h
    try dsimp only at h
    rcases htp : LlmClient.tryParse chunk with _ | v
    · rw [htp] at h
      try dsimp only at h
      exact extractSubArr_error u t h
    · rw [htp] at h
      try dsimp only at h
      exact Except.noConfusion h

theorem extractJson_error_strip (raw t : List Char)
    (h : LlmClient.extractJson raw = .error t) : t = pyStrip raw := by
  have hshape : LlmClient.extractJson raw
      = (match LlmClient.tryParse (pyStrip raw) with
        | some w => Except.ok w
        | none =>
          match LlmClient.fencedSearch (pyStrip raw) with
          | some content =>
            (match LlmClient.tryParse content with
             | some w => Except.ok w
             | none => LlmClient.extractSub (pyStrip raw))
          | none => LlmClient.extractSub (pyStrip raw)) := rfl
  rw [hshape] at h
  rcases h1 : LlmClient.tryParse (pyStrip raw) with _ | v
  · rw [h1] at h
    try dsimp only at h
    rcases h2 : LlmClient.fencedSearch (pyStrip raw) with _ | content
    · rw [h2] at h
      try dsimp only at h
      exact extractSub_error _ t h
    · rw [h2] at h
      try dsimp only at h
      rcases h3 : LlmClient.tryParse content with _ | w
      · rw [h3] at h
        try dsimp only at h
        exact extractSub_error _ t h
      · rw [h3] at h
        try dsimp only at h
        exact Except.noConfusion h
  · rw [h1] at h
    try dsimp only at h
    exact Except.noConfusion h

end Service

namespace Service

/-- C6: a code bug makes the claimed propagation unreachable.  In
`classify_note` itself the decode failure does carry the stripped oracle
text and never becomes a result list (so it is never converted into a
`makes_sense=false` result); but the `/classify` endpoint evaluates the
missing `request.lang` attribute and answers 500 with the attribute-error
text for EVERY oracle reply — an undecodable reply and any other reply
produce the identical response, so the decode failure never reaches the
backend; the backend caller in turn maps that 500 and a transport
connection error to the same `None`. -/
theorem C6_theorem (raw other : List Char) (note : String)
    (existing : List Classifier.GroupInfo) (t : List Char)
    (hdec : LlmClient.extractJson raw = .error t) :
    t = pyStrip raw ∧
    classifyNoteFn raw note existing = .error (DECODE_MSG ++ t) ∧
    (∀ rs, classifyNoteFn raw note existing ≠ .ok rs) ∧
    serviceClassify true raw note existing = .err 500 LANG_ATTR_MSG ∧
    serviceClassify true raw note existing
      = serviceClassify true other note existing ∧
    classifyWithAi (.response (serviceClassify true raw note existing)) = none ∧
    classifyWithAi (.response (serviceClassify true raw note existing))
      = classifyWithAi .connectError := by
  have hfn : classifyNoteFn raw note existing = .error (DECODE_MSG ++ t) := by
    unfold classifyNoteFn
    rw [hdec]
  refine ⟨extractJson_error_strip raw t hdec, hfn, ?_, rfl, rfl, rfl, rfl⟩
  intro rs hok
  rw [hfn] at hok
  exact Except.noConfusion hok

/-- C6: witness.  The unparseable oracle reply `%%%` versus the decodable
reply `17`: `classify_note` would propagate the decode error carrying the
text, yet the endpoint answers the same attribute-error 500 for both, and
the backend caller sees the same `None` as for a connection error. -/
theorem C6_witness :
    LlmClient.extractJson ("%%%".data) = .error ("%%%".data) ∧
    (("%%%".data : List Char) = pyStrip ("%%%".data) ∧
      classifyNoteFn ("%%%".data) "x" [] = .error (DECODE_MSG ++ "%%%".data) ∧
      (∀ rs, classifyNoteFn ("%%%".data) "x" [] ≠ .ok rs) ∧
      serviceClassify true ("%%%".data) "x" [] = .err 500 LANG_ATTR_MSG ∧
      serviceClassify true ("%%%".data) "x" []
        = serviceClassify true ("17".data) "x" [] ∧
      classifyWithAi (.response (serviceClassify true ("%%%".data) "x" []))
        = none ∧
      classifyWithAi (.response (serviceClassify true ("%%%".data) "x" []))
        = classifyWithAi .connectError) :=
  ⟨rfl, C6_theorem ("%%%".data) ("17".data) "x" [] ("%%%".data) rfl⟩

end Service

end Spec2Proof
